import Mathlib

/-!
Verification of the batch-orchestration script `batch_process.py`.

The script's `process_images` iterates over a directory of images, invokes an
external upscaler child process once per image, renames the newest PNG that the
child dropped into the output directory to `frame_<i:03d>.png`, and finally
shells out to ffmpeg once to stitch the frames into a video.

Shallow embedding choices:
  * Directory listings are `List String` in `os.listdir` order; the output
    directory is a `List OutFile` (filename plus modification time).
    Modification times are modelled as integers: only their ordering matters.
  * The two external child processes are opaque collaborators; they are
    parameters of the embedding.  The upscaler is a function from the
    invocation index, the input filename and the current output-directory
    state to an exit status and the new directory state (the real child
    receives a command line built from those data).  The encoder is a function
    from the directory state to an exit status and a new directory state.
  * Python exceptions (`CalledProcessError` from `subprocess.run(check=True)`,
    `IndexError` from `[-1]` on an empty list, `ZeroDivisionError` from
    `1/framerate`) are modelled as an `Option RunError` outcome; `os.system`
    has no `check=True` and its status is ignored by the source.
  * Observable actions (directory creation, listing, child invocations,
    renames, the encoder call, the two report prints) are recorded in a trace.
-/

namespace BatchProcess

/-- Python `str.lower()` restricted to ASCII, which is all the script compares
(`Char.toLower` lowercases exactly the ASCII uppercase letters). -/
def pyLower (s : String) : String := String.mk (s.data.map Char.toLower)

/-- Python `str.endswith(suffix)`: the last `suffix.length` characters equal
the suffix. -/
def endsWith (l suf : List Char) : Bool :=
  decide (List.drop (l.length - suf.length) l = suf)

/-- The test `fn.lower().endswith(".png")` from line 57 of the source. -/
def isPng (s : String) : Bool := endsWith (pyLower s).data (".png".data)

/-- Extension part of CPython `os.path.splitext` for a bare filename (no path
separators): everything from the last dot onward, except that a name whose
characters before the last dot are all dots has no extension.  The helper
walks the reversed character list; `seen` accumulates, in original order, the
characters already passed (those after the candidate dot). -/
def extAuxR (seen : List Char) : List Char → List Char
  | [] => []
  | c :: rest =>
    if c = '.' then
      if rest.any (fun x => x ≠ '.') then c :: seen else []
    else extAuxR (c :: seen) rest

/-- `os.path.splitext(f)[1]` for a bare filename. -/
def splitextExt (s : String) : String := String.mk (extAuxR [] s.data.reverse)

/-- The allowed extension set from line 22 of the source. -/
def extensions : List String := [".png", ".jpg", ".jpeg", ".bmp", ".tif", ".tiff"]

/-- The filter on line 25: `os.path.splitext(f)[1].lower() in extensions`. -/
def isImageFile (f : String) : Bool := extensions.contains (pyLower (splitextExt f))

/-- Python string `<=`: lexicographic comparison of code points. -/
def lexLe : List Char → List Char → Bool
  | [], _ => true
  | _ :: _, [] => false
  | a :: as, b :: bs =>
    if a.toNat < b.toNat then true
    else if b.toNat < a.toNat then false
    else lexLe as bs

/-- Python string order as a proposition. -/
def pyLe (a b : String) : Prop := lexLe a.data b.data = true

instance : DecidableRel pyLe := fun a b => by unfold pyLe; infer_instance

/-- Python `sorted` on a list of strings.  `sorted` is a stable sort, and the
string order is antisymmetric, so any sorting algorithm returns the same
list; we use insertion sort. -/
def sortStrings (l : List String) : List String := List.insertionSort pyLe l

/-- Decimal digits of `n`, least significant first, with explicit fuel so that
the recursion is structural (`natDigits` supplies `n` itself as fuel, which is
always enough). -/
def digitsAux : ℕ → ℕ → List ℕ
  | _, 0 => []
  | 0, _ + 1 => []
  | fuel + 1, n + 1 => (n + 1) % 10 :: digitsAux fuel ((n + 1) / 10)

/-- Decimal digits of `n`, least significant first. -/
def natDigits (n : ℕ) : List ℕ := digitsAux n n

/-- The character for a decimal digit. -/
def digitCh (d : ℕ) : Char := Char.ofNat (48 + d)

/-- Decimal representation of `n`, most significant digit first (empty for 0,
which the zero padding below covers, matching `format`). -/
def natChars (n : ℕ) : List Char := (natDigits n).reverse.map digitCh

/-- Python `f"{n:03d}"` for a natural number: decimal digits left-padded with
zeros to width 3. -/
def pad3 (n : ℕ) : List Char :=
  List.replicate (3 - (natChars n).length) '0' ++ natChars n

/-- The canonical frame name `f"frame_{idx:03d}.png"` from line 35. -/
def frameName (idx : ℕ) : String :=
  String.mk ("frame_".data ++ pad3 idx ++ ".png".data)

/-- A file in the output directory: name and modification time (only the
ordering of `os.path.getmtime` values matters). -/
structure OutFile where
  name : String
  mtime : ℤ
deriving DecidableEq, Repr

/-- Output-directory state: files in `os.listdir` order. -/
abbrev OutDir := List OutFile

/-- The filenames of a directory state. -/
def dirNames (d : OutDir) : List String := d.map OutFile.name

/-- Line 57: the PNG files of the output directory, in listing order. -/
def pngFiles (d : OutDir) : OutDir := d.filter (fun f => isPng f.name)

/-- Line 56–59: `sorted(pngs, key=getmtime)[-1]`.  The last element of a
stable sort by modification time is the latest-listed file among those of
maximal mtime, which this fold computes directly (`[-1]` on an empty list
raises `IndexError`, modelled by `none`). -/
def pickStep (acc : Option OutFile) (f : OutFile) : Option OutFile :=
  match acc with
  | none => some f
  | some b => if b.mtime ≤ f.mtime then some f else some b

def pickNewest (l : OutDir) : Option OutFile := l.foldl pickStep none

/-- `os.rename(src, dst)` restricted to one directory, with POSIX semantics:
the entry named `src` is renamed to `dst`, silently replacing any existing
entry named `dst`; renaming a file to its own name is a no-op.  A rename does
not change the file's modification time. -/
def renameFile (d : OutDir) (src dst : String) : OutDir :=
  if src = dst then d
  else
    (d.filter (fun f => f.name ≠ dst)).map
      (fun f => if f.name = src then ⟨dst, f.mtime⟩ else f)

/-- Lines 56–63: pick the newest PNG in the output directory and rename it to
`frame_<i:03d>.png`.  Returns the chosen source name and the new directory
state, or `none` for the `IndexError` on an empty PNG list. -/
def renameStep (i : ℕ) (d : OutDir) : Option (String × OutDir) :=
  match pickNewest (pngFiles d) with
  | some g => some (g.name, renameFile d g.name (frameName i))
  | none => none

/-- `os.makedirs(output_folder, exist_ok=True)` (line 19): after the call the
directory exists, whether or not it already did; never an error. -/
def mkdirs (_already : Bool) : Bool := true

/-- Observable actions of a run, in order. -/
inductive Event
  | mkdirOutput
  | listInput
  | reportNoImages
  | upscale (idx : ℕ) (filename : String)
  | rename (idx : ℕ) (src dst : String)
  | encode (inputRate : ℚ) (outputFps : ℤ) (exit : ℤ)
  | reportSuccess
deriving DecidableEq, Repr

/-- The unhandled Python exceptions that can terminate `process_images`. -/
inductive RunError
  | upscalerFailed (idx : ℕ)
  | renameIndexError (idx : ℕ)
  | divisionByZero
deriving DecidableEq, Repr

/-- The upscaler child process (lines 38–51), abstracted: from the 1-based
invocation index, the input filename and the output-directory state to an
exit status and the new directory state. -/
abbrev UpEnv := ℕ → String → OutDir → ℤ × OutDir

/-- The encoder child process (line 73, `os.system(ffmpeg_cmd)`), abstracted:
from the output-directory state to an exit status and the new state. -/
abbrev EncEnv := OutDir → ℤ × OutDir

/-- Result of the per-image loop: events, final directory state, and the
exception (if any) that aborted it. -/
structure LoopOut where
  trace : List Event
  dir : OutDir
  err : Option RunError
deriving DecidableEq, Repr

/-- The per-image loop (lines 33–63).  `i` is the 1-based index of the next
image.  `subprocess.run(cmd, check=True)` raises on a non-zero exit status;
the rename step raises `IndexError` when the output directory holds no PNG. -/
def loop (env : UpEnv) : List String → ℕ → OutDir → LoopOut
  | [], _, d => ⟨[], d, none⟩
  | f :: rest, i, d =>
    let r := env i f d
    if r.1 = 0 then
      match renameStep i r.2 with
      | some (src, d2) =>
        let out := loop env rest (i + 1) d2
        ⟨Event.upscale i f :: Event.rename i src (frameName i) :: out.trace,
          out.dir, out.err⟩
      | none => ⟨[Event.upscale i f], r.2, some (RunError.renameIndexError i)⟩
    else ⟨[Event.upscale i f], r.2, some (RunError.upscalerFailed i)⟩

/-- Result of a whole run. -/
structure RunResult where
  trace : List Event
  outDirExists : Bool
  dir : OutDir
  err : Option RunError
deriving DecidableEq, Repr

/-- `process_images` (lines 5–74).  `listing` is the `os.listdir` view of the
input directory, `outExists0` whether the output directory already exists and
`d0` its initial contents; `framerate` and `video_fps` are the script's
integer parameters.  Steps, in source order: `os.makedirs` (line 19), filter
and sort the listing (lines 22–26), early return when no images (lines
28–30), the per-image loop (lines 33–63), then the ffmpeg command whose
construction divides by `framerate` (lines 66–71) and `os.system` (line 73),
whose exit status the source ignores before printing success (line 74). -/
def process_images (env : UpEnv) (enc : EncEnv) (listing : List String)
    (outExists0 : Bool) (d0 : OutDir) (framerate video_fps : ℤ) : RunResult :=
  let outEx := mkdirs outExists0
  let files := sortStrings (listing.filter (fun f => isImageFile f))
  if files.isEmpty then
    ⟨[Event.mkdirOutput, Event.listInput, Event.reportNoImages], outEx, d0, none⟩
  else
    let lo := loop env files 1 d0
    match lo.err with
    | some e =>
      ⟨Event.mkdirOutput :: Event.listInput :: lo.trace, outEx, lo.dir, some e⟩
    | none =>
      if framerate = 0 then
        ⟨Event.mkdirOutput :: Event.listInput :: lo.trace, outEx, lo.dir,
          some RunError.divisionByZero⟩
      else
        let er := enc lo.dir
        ⟨(Event.mkdirOutput :: Event.listInput :: lo.trace) ++
            [Event.encode (1 / (framerate : ℚ)) video_fps er.1,
              Event.reportSuccess],
          outEx, er.2, none⟩

/-- Whether an event is a frame rename. -/
def isRenameEv : Event → Bool
  | Event.rename _ _ _ => true
  | _ => false

/-- Whether an event is an encoder invocation. -/
def isEncodeEv : Event → Bool
  | Event.encode _ _ _ => true
  | _ => false

/-- Count of rename events in a trace. -/
def countRename (t : List Event) : ℕ := t.countP isRenameEv

/-- Count of encoder invocations in a trace. -/
def countEncode (t : List Event) : ℕ := t.countP isEncodeEv

/-- An upscaler invocation behaves as the spec assumes at index `i`: it
succeeds and deposits exactly one new PNG, fresh in name and strictly newest
by modification time. -/
def FreshAt (env : UpEnv) (i : ℕ) : Prop :=
  ∀ f d, ∃ nm mt,
    env i f d = (0, d ++ [⟨nm, mt⟩]) ∧ isPng nm = true ∧
      nm ∉ dirNames d ∧ ∀ g ∈ d, g.mtime < mt

/-- The encoder only adds files to the output directory. -/
def EncAppends (enc : EncEnv) : Prop :=
  ∀ d, ∃ e extra, enc d = (e, d ++ extra)

/-! ### Decimal formatting: `frameName` is injective and names PNG files -/

/-- Every digit produced by `digitsAux` is below 10. -/
lemma digitsAux_lt : ∀ fuel n, ∀ d ∈ digitsAux fuel n, d < 10 := by
  intro fuel
  induction fuel with
  | zero =>
    intro n d hd
    cases n <;> simp [digitsAux] at hd
  | succ f ih =>
    intro n d hd
    cases n with
    | zero => simp [digitsAux] at hd
    | succ m =>
      simp only [digitsAux, List.mem_cons] at hd
      rcases hd with h | h
      · subst h; exact Nat.mod_lt _ (by norm_num)
      · exact ih _ _ h

/-- Value of a little-endian digit list. -/
def unDigits (l : List ℕ) : ℕ := l.foldr (fun d a => 10 * a + d) 0

/-- `digitsAux` is inverted by `unDigits` whenever the fuel suffices. -/
lemma unDigits_digitsAux : ∀ fuel n, n ≤ fuel → unDigits (digitsAux fuel n) = n := by
  intro fuel
  induction fuel with
  | zero =>
    intro n hn
    interval_cases n
    simp [digitsAux, unDigits]
  | succ f ih =>
    intro n hn
    cases n with
    | zero => simp [digitsAux, unDigits]
    | succ m =>
      have hdiv : (m + 1) / 10 ≤ f := by
        have h1 : (m + 1) / 10 < m + 1 := Nat.div_lt_self (Nat.succ_pos m) (by norm_num)
        omega
      simp only [digitsAux, unDigits, List.foldr_cons]
      have := ih ((m + 1) / 10) hdiv
      unfold unDigits at this
      rw [this, Nat.div_add_mod]

/-- Reading a character list as a decimal number (each character taken as a
digit), used only to invert `pad3`. -/
def parseChars (l : List Char) : ℕ :=
  l.foldl (fun a c => 10 * a + (c.toNat - 48)) 0

lemma digitCh_toNat : ∀ d, d < 10 → (digitCh d).toNat = 48 + d := by decide

lemma foldr_digitCh (l : List ℕ) (h : ∀ d ∈ l, d < 10) :
    List.foldr (fun d a => 10 * a + ((digitCh d).toNat - 48)) 0 l = unDigits l := by
  induction l with
  | nil => rfl
  | cons d ds ih =>
    unfold unDigits
    simp only [List.foldr_cons]
    have hd : (digitCh d).toNat = 48 + d := digitCh_toNat d (h d (List.mem_cons_self _ _))
    have hds := ih (fun x hx => h x (List.mem_cons_of_mem _ hx))
    unfold unDigits at hds
    rw [hds, hd]
    omega

lemma parseChars_natChars (n : ℕ) : parseChars (natChars n) = n := by
  unfold parseChars natChars
  rw [List.map_reverse, List.foldl_reverse, List.foldr_map]
  unfold natDigits
  exact (foldr_digitCh _ (digitsAux_lt n n)).trans (unDigits_digitsAux n n le_rfl)

lemma parseChars_replicate_zero (k : ℕ) (l : List Char) :
    parseChars (List.replicate k '0' ++ l) = parseChars l := by
  unfold parseChars
  rw [List.foldl_append]
  have h : ∀ k, List.foldl (fun a c => 10 * a + (c.toNat - 48)) 0
      (List.replicate k '0') = 0 := by
    intro k
    induction k with
    | zero => rfl
    | succ m ih => simpa [List.replicate_succ] using ih
  rw [h]

lemma parseChars_pad3 (n : ℕ) : parseChars (pad3 n) = n := by
  unfold pad3
  rw [parseChars_replicate_zero, parseChars_natChars]

lemma pad3_injective : Function.Injective pad3 := by
  intro a b h
  have := congrArg parseChars h
  rwa [parseChars_pad3, parseChars_pad3] at this

lemma frameName_injective : Function.Injective frameName := by
  intro a b h
  unfold frameName at h
  have hdata := congrArg String.data h
  simp only [String.data] at hdata
  rw [List.append_assoc, List.append_assoc] at hdata
  have h1 : pad3 a ++ ".png".data = pad3 b ++ ".png".data :=
    List.append_cancel_left hdata
  exact pad3_injective (List.append_cancel_right h1)

lemma frameName_ne (a b : ℕ) (h : a ≠ b) : frameName a ≠ frameName b :=
  fun he => h (frameName_injective he)

lemma toLower_digitCh : ∀ d, d < 10 → Char.toLower (digitCh d) = digitCh d := by
  decide

lemma map_toLower_pad3 (n : ℕ) : (pad3 n).map Char.toLower = pad3 n := by
  unfold pad3
  rw [List.map_append, List.map_replicate]
  rw [show Char.toLower '0' = '0' from by decide]
  congr 1
  unfold natChars
  rw [List.map_map]
  refine List.map_congr_left ?_
  intro d hd
  exact toLower_digitCh d (digitsAux_lt n n d (List.mem_reverse.mp hd))

lemma map_toLower_frameData (i : ℕ) :
    ("frame_".data ++ pad3 i ++ ".png".data).map Char.toLower =
      "frame_".data ++ pad3 i ++ ".png".data := by
  simp only [List.map_append]
  rw [show List.map Char.toLower ("frame_".data) = "frame_".data from by decide,
    show List.map Char.toLower (".png".data) = ".png".data from by decide,
    map_toLower_pad3]

lemma pyLower_frameName (i : ℕ) : pyLower (frameName i) = frameName i := by
  show String.mk (("frame_".data ++ pad3 i ++ ".png".data).map Char.toLower) =
    frameName i
  rw [map_toLower_frameData]
  rfl

lemma endsWith_append (l suf : List Char) : endsWith (l ++ suf) suf = true := by
  unfold endsWith
  rw [List.length_append, Nat.add_sub_cancel, List.drop_left]
  simp

lemma isPng_frameName (i : ℕ) : isPng (frameName i) = true := by
  unfold isPng
  rw [pyLower_frameName]
  rw [show (frameName i).data = ("frame_".data ++ pad3 i) ++ ".png".data from rfl]
  exact endsWith_append _ _

/-! ### Selecting the newest PNG -/

lemma pickNewest_go : ∀ (l : OutDir) (b : OutFile),
    ∃ r, List.foldl pickStep (some b) l = some r ∧ (r ∈ l ∨ r = b) ∧
      b.mtime ≤ r.mtime ∧ ∀ f ∈ l, f.mtime ≤ r.mtime := by
  intro l
  induction l with
  | nil => exact fun b => ⟨b, rfl, Or.inr rfl, le_rfl, by simp⟩
  | cons x xs ih =>
    intro b
    simp only [List.foldl_cons]
    by_cases hbx : b.mtime ≤ x.mtime
    · rcases ih x with ⟨r, hr, hmem, hble, hall⟩
      refine ⟨r, ?_, ?_, le_trans hbx hble, ?_⟩
      · rw [show pickStep (some b) x = some x from by simp [pickStep, hbx]]
        exact hr
      · rcases hmem with h | h
        · exact Or.inl (List.mem_cons_of_mem _ h)
        · exact Or.inl (by rw [h]; exact List.mem_cons_self _ _)
      · intro f hf
        rcases List.mem_cons.mp hf with h | h
        · rw [h]; exact hble
        · exact hall f h
    · rcases ih b with ⟨r, hr, hmem, hble, hall⟩
      refine ⟨r, ?_, ?_, hble, ?_⟩
      · rw [show pickStep (some b) x = some b from by simp [pickStep, hbx]]
        exact hr
      · rcases hmem with h | h
        · exact Or.inl (List.mem_cons_of_mem _ h)
        · exact Or.inr h
      · intro f hf
        rcases List.mem_cons.mp hf with h | h
        · rw [h]; exact le_trans (le_of_not_le hbx) hble
        · exact hall f h

lemma pickNewest_spec (l : OutDir) (h : l ≠ []) :
    ∃ g, pickNewest l = some g ∧ g ∈ l ∧ ∀ f ∈ l, f.mtime ≤ g.mtime := by
  cases l with
  | nil => exact absurd rfl h
  | cons x xs =>
    unfold pickNewest
    simp only [List.foldl_cons]
    rw [show pickStep none x = some x from rfl]
    rcases pickNewest_go xs x with ⟨r, hr, hmem, hxle, hall⟩
    refine ⟨r, hr, ?_, ?_⟩
    · rcases hmem with h | h
      · exact List.mem_cons_of_mem _ h
      · rw [h]; exact List.mem_cons_self _ _
    · intro f hf
      rcases List.mem_cons.mp hf with h | h
      · rw [h]; exact hxle
      · exact hall f h

lemma pickNewest_append_newest (l : OutDir) (x : OutFile)
    (h : ∀ f ∈ l, f.mtime < x.mtime) : pickNewest (l ++ [x]) = some x := by
  by_cases hl : l = []
  · subst hl; rfl
  · rcases pickNewest_spec l hl with ⟨g, hg, hgm, _⟩
    unfold pickNewest at hg ⊢
    rw [List.foldl_append, hg]
    simp only [List.foldl_cons, List.foldl_nil]
    simp [pickStep, le_of_lt (h g hgm)]

/-! ### PNG filtering and renaming -/

lemma pngFiles_append (d e : OutDir) : pngFiles (d ++ e) = pngFiles d ++ pngFiles e :=
  List.filter_append _ _

lemma mem_of_mem_pngFiles {f : OutFile} {d : OutDir} (h : f ∈ pngFiles d) : f ∈ d :=
  (List.mem_filter.mp h).1

lemma pngFiles_singleton_png {x : OutFile} (h : isPng x.name = true) :
    pngFiles [x] = [x] := by
  simp [pngFiles, h]

lemma dirNames_append (d e : OutDir) : dirNames (d ++ e) = dirNames d ++ dirNames e := by
  simp [dirNames]

lemma renameFile_fresh (d : OutDir) (nm : String) (mt : ℤ) (dst : String)
    (hnm : nm ∉ dirNames d) (hdst : dst ∉ dirNames d) :
    renameFile (d ++ [⟨nm, mt⟩]) nm dst = d ++ [⟨dst, mt⟩] := by
  by_cases hne : nm = dst
  · subst hne
    simp [renameFile]
  · unfold renameFile
    rw [if_neg hne]
    have hall : ∀ a ∈ d ++ [(⟨nm, mt⟩ : OutFile)], decide (a.name ≠ dst) = true := by
      intro a ha
      rcases List.mem_append.mp ha with h | h
      · have hmem : a.name ∈ dirNames d := List.mem_map_of_mem _ h
        simp only [decide_eq_true_eq]
        exact fun hc => hdst (hc ▸ hmem)
      · simp only [List.mem_singleton] at h
        subst h
        simpa using hne
    rw [List.filter_eq_self.mpr hall, List.map_append]
    congr 1
    · refine (List.map_congr_left ?_).trans (List.map_id d)
      intro a ha
      have hns : a.name ≠ nm := fun hc => hnm (hc ▸ List.mem_map_of_mem _ ha)
      simp [hns]
    · simp

lemma renameFile_mem_other {d : OutDir} {src dst : String} {f : OutFile}
    (hf : f ∈ d) (h1 : f.name ≠ src) (h2 : f.name ≠ dst) :
    f ∈ renameFile d src dst := by
  unfold renameFile
  by_cases hne : src = dst
  · rw [if_pos hne]; exact hf
  · rw [if_neg hne]
    have hfil : f ∈ d.filter (fun f => decide (f.name ≠ dst)) :=
      List.mem_filter.mpr ⟨hf, by simpa using h2⟩
    have hm := List.mem_map_of_mem
      (fun f : OutFile => if f.name = src then ⟨dst, f.mtime⟩ else f) hfil
    have hm2 : (if f.name = src then (⟨dst, f.mtime⟩ : OutFile) else f) ∈
        List.map (fun f : OutFile => if f.name = src then ⟨dst, f.mtime⟩ else f)
          (List.filter (fun f => decide (f.name ≠ dst)) d) := hm
    rwa [if_neg h1] at hm2

lemma renameFile_mem_src {d : OutDir} {src dst : String} {mt : ℤ}
    (hne : src ≠ dst) (hf : (⟨src, mt⟩ : OutFile) ∈ d) :
    (⟨dst, mt⟩ : OutFile) ∈ renameFile d src dst := by
  unfold renameFile
  rw [if_neg hne]
  have hfil : (⟨src, mt⟩ : OutFile) ∈ d.filter (fun f => decide (f.name ≠ dst)) :=
    List.mem_filter.mpr ⟨hf, by simpa using hne⟩
  have hm2 : (if src = src then (⟨dst, mt⟩ : OutFile) else ⟨src, mt⟩) ∈
      List.map (fun f : OutFile => if f.name = src then ⟨dst, f.mtime⟩ else f)
        (List.filter (fun f => decide (f.name ≠ dst)) d) :=
    List.mem_map_of_mem (fun f : OutFile => if f.name = src then ⟨dst, f.mtime⟩ else f) hfil
  rwa [if_pos rfl] at hm2

lemma mem_of_mem_renameFile {d : OutDir} {src dst : String} {f : OutFile}
    (hf : f ∈ renameFile d src dst) :
    f ∈ d ∨ ∃ mt, f = ⟨dst, mt⟩ ∧ (⟨src, mt⟩ : OutFile) ∈ d := by
  unfold renameFile at hf
  by_cases hne : src = dst
  · rw [if_pos hne] at hf; exact Or.inl hf
  · rw [if_neg hne] at hf
    rcases List.mem_map.mp hf with ⟨x, hx, hgx⟩
    have hxd : x ∈ d := (List.mem_filter.mp hx).1
    by_cases hxs : x.name = src
    · right
      refine ⟨x.mtime, ?_, ?_⟩
      · rw [← hgx]; simp [hxs]
      · rcases x with ⟨xn, xm⟩
        simp only at hxs
        subst hxs
        exact hxd
    · left
      rw [← hgx]
      simpa [hxs] using hxd

lemma renameStep_none_iff (i : ℕ) (d : OutDir) :
    renameStep i d = none ↔ pngFiles d = [] := by
  constructor
  · intro hnone
    by_contra hne
    rcases pickNewest_spec _ hne with ⟨g, hg, _, _⟩
    unfold renameStep at hnone
    rw [hg] at hnone
    exact absurd hnone (by simp)
  · intro he
    unfold renameStep
    rw [he]
    rfl

lemma renameStep_some (i : ℕ) (d : OutDir) (h : pngFiles d ≠ []) :
    ∃ g, renameStep i d = some (g.name, renameFile d g.name (frameName i)) ∧
      g ∈ pngFiles d ∧ ∀ f ∈ pngFiles d, f.mtime ≤ g.mtime := by
  rcases pickNewest_spec _ h with ⟨g, hg, hmem, hall⟩
  refine ⟨g, ?_, hmem, hall⟩
  unfold renameStep
  rw [hg]

lemma renameStep_fresh (i : ℕ) (d : OutDir) (nm : String) (mt : ℤ)
    (hpng : isPng nm = true) (hnm : nm ∉ dirNames d)
    (hdst : frameName i ∉ dirNames d) (hmt : ∀ g ∈ d, g.mtime < mt) :
    renameStep i (d ++ [⟨nm, mt⟩]) = some (nm, d ++ [⟨frameName i, mt⟩]) := by
  unfold renameStep
  rw [pngFiles_append, pngFiles_singleton_png hpng,
    pickNewest_append_newest _ _ (fun f hf => hmt f (mem_of_mem_pngFiles hf))]
  show some (nm, renameFile (d ++ [⟨nm, mt⟩]) nm (frameName i)) =
    some (nm, d ++ [⟨frameName i, mt⟩])
  rw [renameFile_fresh d nm mt (frameName i) hnm hdst]

/-! ### Traces of the per-image loop -/

/-- The event sequence of an error-free run of the loop from index `i` over
inputs `fs`, where `ss` lists the names the upscaler deposited (and that the
rename step picked) for each input. -/
def stepsTrace : ℕ → List String → List String → List Event
  | i, f :: fs, s :: ss =>
    Event.upscale i f :: Event.rename i s (frameName i) :: stepsTrace (i + 1) fs ss
  | _, _, _ => []

@[simp] lemma isRenameEv_upscale (i : ℕ) (f : String) :
    isRenameEv (Event.upscale i f) = false := rfl

@[simp] lemma isRenameEv_rename (i : ℕ) (s t : String) :
    isRenameEv (Event.rename i s t) = true := rfl

@[simp] lemma isRenameEv_encode (a : ℚ) (b e : ℤ) :
    isRenameEv (Event.encode a b e) = false := rfl

@[simp] lemma isRenameEv_mkdir : isRenameEv Event.mkdirOutput = false := rfl

@[simp] lemma isRenameEv_list : isRenameEv Event.listInput = false := rfl

@[simp] lemma isRenameEv_noImages : isRenameEv Event.reportNoImages = false := rfl

@[simp] lemma isRenameEv_success : isRenameEv Event.reportSuccess = false := rfl

@[simp] lemma isEncodeEv_upscale (i : ℕ) (f : String) :
    isEncodeEv (Event.upscale i f) = false := rfl

@[simp] lemma isEncodeEv_rename (i : ℕ) (s t : String) :
    isEncodeEv (Event.rename i s t) = false := rfl

@[simp] lemma isEncodeEv_encode (a : ℚ) (b e : ℤ) :
    isEncodeEv (Event.encode a b e) = true := rfl

@[simp] lemma isEncodeEv_mkdir : isEncodeEv Event.mkdirOutput = false := rfl

@[simp] lemma isEncodeEv_list : isEncodeEv Event.listInput = false := rfl

@[simp] lemma isEncodeEv_noImages : isEncodeEv Event.reportNoImages = false := rfl

@[simp] lemma isEncodeEv_success : isEncodeEv Event.reportSuccess = false := rfl

@[simp] lemma countRename_nil : countRename [] = 0 := rfl

@[simp] lemma countRename_cons (e : Event) (t : List Event) :
    countRename (e :: t) = countRename t + if isRenameEv e = true then 1 else 0 :=
  List.countP_cons _ _ _

@[simp] lemma countRename_append (t u : List Event) :
    countRename (t ++ u) = countRename t + countRename u :=
  List.countP_append _ _ _

@[simp] lemma countEncode_nil : countEncode [] = 0 := rfl

@[simp] lemma countEncode_cons (e : Event) (t : List Event) :
    countEncode (e :: t) = countEncode t + if isEncodeEv e = true then 1 else 0 :=
  List.countP_cons _ _ _

@[simp] lemma countEncode_append (t u : List Event) :
    countEncode (t ++ u) = countEncode t + countEncode u :=
  List.countP_append _ _ _

lemma countRename_stepsTrace : ∀ (fs ss : List String) (i : ℕ),
    ss.length = fs.length → countRename (stepsTrace i fs ss) = fs.length := by
  intro fs
  induction fs with
  | nil => intro ss i _; cases ss <;> rfl
  | cons f fs ih =>
    intro ss i h
    cases ss with
    | nil => simp at h
    | cons s ss =>
      have hlen : ss.length = fs.length := by simpa using h
      simp [stepsTrace, ih ss (i + 1) hlen]

lemma countEncode_stepsTrace : ∀ (fs ss : List String) (i : ℕ),
    countEncode (stepsTrace i fs ss) = 0 := by
  intro fs
  induction fs with
  | nil => intro ss i; cases ss <;> rfl
  | cons f fs ih =>
    intro ss i
    cases ss with
    | nil => rfl
    | cons s ss => simp [stepsTrace, ih ss (i + 1)]

lemma upscale_mem_stepsTrace : ∀ (fs ss : List String) (i : ℕ),
    ss.length = fs.length → ∀ j (hj : j < fs.length),
      Event.upscale (i + j) (fs.get ⟨j, hj⟩) ∈ stepsTrace i fs ss := by
  intro fs
  induction fs with
  | nil => intro ss i _ j hj; exact absurd hj (by simp)
  | cons f fs ih =>
    intro ss i h j hj
    cases ss with
    | nil => simp at h
    | cons s ss =>
      have hlen : ss.length = fs.length := by simpa using h
      cases j with
      | zero =>
        simp only [Nat.add_zero, List.get]
        exact List.mem_cons_self _ _
      | succ j =>
        have hj2 : j < fs.length := by simpa using hj
        have hm := ih ss (i + 1) hlen j hj2
        have harith : i + 1 + j = i + (j + 1) := by omega
        rw [harith] at hm
        simp only [stepsTrace, List.get]
        exact List.mem_cons_of_mem _ (List.mem_cons_of_mem _ hm)

lemma rename_mem_stepsTrace : ∀ (fs ss : List String) (i : ℕ),
    ss.length = fs.length → ∀ j, j < fs.length →
      ∃ src, Event.rename (i + j) src (frameName (i + j)) ∈ stepsTrace i fs ss := by
  intro fs
  induction fs with
  | nil => intro ss i _ j hj; exact absurd hj (by simp)
  | cons f fs ih =>
    intro ss i h j hj
    cases ss with
    | nil => simp at h
    | cons s ss =>
      have hlen : ss.length = fs.length := by simpa using h
      cases j with
      | zero =>
        refine ⟨s, ?_⟩
        simp only [Nat.add_zero, stepsTrace]
        exact List.mem_cons_of_mem _ (List.mem_cons_self _ _)
      | succ j =>
        have hj2 : j < fs.length := by simpa using hj
        rcases ih ss (i + 1) hlen j hj2 with ⟨src, hm⟩
        have harith : i + 1 + j = i + (j + 1) := by omega
        rw [harith] at hm
        exact ⟨src, List.mem_cons_of_mem _ (List.mem_cons_of_mem _ hm)⟩

lemma stepsTrace_rename_bounds : ∀ (fs ss : List String) (i a : ℕ) (s t : String),
    Event.rename a s t ∈ stepsTrace i fs ss →
      i ≤ a ∧ a < i + fs.length ∧ t = frameName a := by
  intro fs
  induction fs with
  | nil => intro ss i a s t h; cases ss <;> simp [stepsTrace] at h
  | cons f fs ih =>
    intro ss i a s t h
    cases ss with
    | nil => simp [stepsTrace] at h
    | cons x ss =>
      simp only [stepsTrace, List.mem_cons] at h
      rcases h with h | h | h
      · exact absurd h (by simp)
      · have ha : a = i ∧ s = x ∧ t = frameName i := by
          injection h with h1 h2 h3
          exact ⟨h1, h2, h3⟩
        rcases ha with ⟨h1, _, h3⟩
        subst h1
        exact ⟨le_rfl, by simp, h3⟩
      · rcases ih ss (i + 1) a s t h with ⟨h1, h2, h3⟩
        exact ⟨by omega, by simp only [List.length_cons]; omega, h3⟩

lemma frameName_not_mem_range (m j : ℕ) (hj : m < j) :
    frameName j ∉ (List.range' 1 m).map frameName := by
  intro h
  rcases List.mem_map.mp h with ⟨x, hx, hfx⟩
  have hb := List.mem_range'_1.mp hx
  have hxj : x = j := frameName_injective hfx
  omega

/-! ### General facts about the per-image loop -/

lemma loop_nil (env : UpEnv) (i : ℕ) (d : OutDir) :
    loop env [] i d = ⟨[], d, none⟩ := rfl

lemma loop_cons (env : UpEnv) (f : String) (rest : List String) (i : ℕ) (d : OutDir) :
    loop env (f :: rest) i d =
      if (env i f d).1 = 0 then
        match renameStep i (env i f d).2 with
        | some (src, d2) =>
          ⟨Event.upscale i f :: Event.rename i src (frameName i) ::
              (loop env rest (i + 1) d2).trace,
            (loop env rest (i + 1) d2).dir, (loop env rest (i + 1) d2).err⟩
        | none =>
          ⟨[Event.upscale i f], (env i f d).2, some (RunError.renameIndexError i)⟩
      else ⟨[Event.upscale i f], (env i f d).2, some (RunError.upscalerFailed i)⟩ := rfl

lemma loop_trace_events : ∀ (env : UpEnv) (fs : List String) (i : ℕ) (d : OutDir)
    (ev : Event), ev ∈ (loop env fs i d).trace →
      (∃ j f, ev = Event.upscale j f) ∨ ∃ j s t, ev = Event.rename j s t := by
  intro env fs
  induction fs with
  | nil => intro i d ev h; simp [loop_nil] at h
  | cons f rest ih =>
    intro i d ev h
    rw [loop_cons] at h
    by_cases hz : (env i f d).1 = 0
    · rw [if_pos hz] at h
      cases hrs : renameStep i (env i f d).2 with
      | none =>
        rw [hrs] at h
        have h2 : ev ∈ [Event.upscale i f] := h
        simp only [List.mem_singleton] at h2
        exact Or.inl ⟨i, f, h2⟩
      | some p =>
        rcases p with ⟨src, d2⟩
        rw [hrs] at h
        have h2 : ev ∈ Event.upscale i f :: Event.rename i src (frameName i) ::
            (loop env rest (i + 1) d2).trace := h
        rcases List.mem_cons.mp h2 with h3 | h3
        · exact Or.inl ⟨i, f, h3⟩
        rcases List.mem_cons.mp h3 with h4 | h4
        · exact Or.inr ⟨i, src, frameName i, h4⟩
        · exact ih (i + 1) d2 ev h4
    · rw [if_neg hz] at h
      simp only [List.mem_singleton] at h
      exact Or.inl ⟨i, f, h⟩

lemma countEncode_loop (env : UpEnv) (fs : List String) (i : ℕ) (d : OutDir) :
    countEncode (loop env fs i d).trace = 0 := by
  refine List.countP_eq_zero.mpr ?_
  intro ev hev
  rcases loop_trace_events env fs i d ev hev with ⟨j, f, h⟩ | ⟨j, s, t, h⟩ <;>
    subst h <;> simp

lemma encode_not_mem_loop (env : UpEnv) (fs : List String) (i : ℕ) (d : OutDir)
    (a : ℚ) (b e : ℤ) : Event.encode a b e ∉ (loop env fs i d).trace := by
  intro h
  rcases loop_trace_events env fs i d _ h with ⟨j, f, hf⟩ | ⟨j, s, t, hf⟩ <;>
    simp at hf

lemma countRename_loop : ∀ (env : UpEnv) (fs : List String) (i : ℕ) (d : OutDir),
    (loop env fs i d).err = none →
      countRename (loop env fs i d).trace = fs.length := by
  intro env fs
  induction fs with
  | nil => intro i d _; rfl
  | cons f rest ih =>
    intro i d herr
    by_cases hz : (env i f d).1 = 0
    · cases hrs : renameStep i (env i f d).2 with
      | none =>
        have hl : loop env (f :: rest) i d =
            ⟨[Event.upscale i f], (env i f d).2,
              some (RunError.renameIndexError i)⟩ := by
          rw [loop_cons, if_pos hz, hrs]
        rw [hl] at herr
        exact absurd herr (by simp)
      | some p =>
        rcases p with ⟨src, d2⟩
        have hl : loop env (f :: rest) i d =
            ⟨Event.upscale i f :: Event.rename i src (frameName i) ::
                (loop env rest (i + 1) d2).trace,
              (loop env rest (i + 1) d2).dir, (loop env rest (i + 1) d2).err⟩ := by
          rw [loop_cons, if_pos hz, hrs]
        rw [hl] at herr ⊢
        simp [ih (i + 1) d2 herr]
    · have hl : loop env (f :: rest) i d =
          ⟨[Event.upscale i f], (env i f d).2,
            some (RunError.upscalerFailed i)⟩ := by
        rw [loop_cons, if_neg hz]
      rw [hl] at herr
      exact absurd herr (by simp)

lemma loop_rename_bounds : ∀ (env : UpEnv) (fs : List String) (i : ℕ) (d : OutDir)
    (a : ℕ) (s t : String), Event.rename a s t ∈ (loop env fs i d).trace →
      i ≤ a ∧ a < i + fs.length ∧ t = frameName a := by
  intro env fs
  induction fs with
  | nil => intro i d a s t h; simp [loop_nil] at h
  | cons f rest ih =>
    intro i d a s t h
    by_cases hz : (env i f d).1 = 0
    · cases hrs : renameStep i (env i f d).2 with
      | none =>
        have hl : loop env (f :: rest) i d =
            ⟨[Event.upscale i f], (env i f d).2,
              some (RunError.renameIndexError i)⟩ := by
          rw [loop_cons, if_pos hz, hrs]
        rw [hl] at h
        simp at h
      | some p =>
        rcases p with ⟨src, d2⟩
        have hl : loop env (f :: rest) i d =
            ⟨Event.upscale i f :: Event.rename i src (frameName i) ::
                (loop env rest (i + 1) d2).trace,
              (loop env rest (i + 1) d2).dir, (loop env rest (i + 1) d2).err⟩ := by
          rw [loop_cons, if_pos hz, hrs]
        rw [hl] at h
        rcases List.mem_cons.mp h with h3 | h3
        · exact absurd h3 (by simp)
        rcases List.mem_cons.mp h3 with h4 | h4
        · have ha : a = i ∧ s = src ∧ t = frameName i := by
            injection h4 with h5 h6 h7
            exact ⟨h5, h6, h7⟩
          rcases ha with ⟨h5, _, h7⟩
          subst h5
          exact ⟨le_rfl, by simp, h7⟩
        · rcases ih (i + 1) d2 a s t h4 with ⟨h5, h6, h7⟩
          exact ⟨by omega, by simp only [List.length_cons]; omega, h7⟩
    · have hl : loop env (f :: rest) i d =
          ⟨[Event.upscale i f], (env i f d).2,
            some (RunError.upscalerFailed i)⟩ := by
        rw [loop_cons, if_neg hz]
      rw [hl] at h
      simp at h

lemma loop_append : ∀ (env : UpEnv) (fs1 fs2 : List String) (i : ℕ) (d : OutDir),
    (loop env fs1 i d).err = none →
      loop env (fs1 ++ fs2) i d =
        ⟨(loop env fs1 i d).trace ++
            (loop env fs2 (i + fs1.length) (loop env fs1 i d).dir).trace,
          (loop env fs2 (i + fs1.length) (loop env fs1 i d).dir).dir,
          (loop env fs2 (i + fs1.length) (loop env fs1 i d).dir).err⟩ := by
  intro env fs1
  induction fs1 with
  | nil =>
    intro fs2 i d _
    simp only [List.nil_append, loop_nil, List.length_nil, Nat.add_zero]
  | cons f rest ih =>
    intro fs2 i d herr
    by_cases hz : (env i f d).1 = 0
    · cases hrs : renameStep i (env i f d).2 with
      | none =>
        have hl : loop env (f :: rest) i d =
            ⟨[Event.upscale i f], (env i f d).2,
              some (RunError.renameIndexError i)⟩ := by
          rw [loop_cons, if_pos hz, hrs]
        rw [hl] at herr
        exact absurd herr (by simp)
      | some p =>
        rcases p with ⟨src, d2⟩
        have hl : loop env (f :: rest) i d =
            ⟨Event.upscale i f :: Event.rename i src (frameName i) ::
                (loop env rest (i + 1) d2).trace,
              (loop env rest (i + 1) d2).dir, (loop env rest (i + 1) d2).err⟩ := by
          rw [loop_cons, if_pos hz, hrs]
        rw [hl] at herr
        have herr2 : (loop env rest (i + 1) d2).err = none := herr
        have hstep := ih fs2 (i + 1) d2 herr2
        have hl2 : loop env ((f :: rest) ++ fs2) i d =
            ⟨Event.upscale i f :: Event.rename i src (frameName i) ::
                (loop env (rest ++ fs2) (i + 1) d2).trace,
              (loop env (rest ++ fs2) (i + 1) d2).dir,
              (loop env (rest ++ fs2) (i + 1) d2).err⟩ := by
          rw [List.cons_append, loop_cons, if_pos hz, hrs]
        rw [hl2, hstep, hl]
        have harith : i + 1 + rest.length = i + (rest.length + 1) := by omega
        simp [harith]
    · have hl : loop env (f :: rest) i d =
          ⟨[Event.upscale i f], (env i f d).2,
            some (RunError.upscalerFailed i)⟩ := by
        rw [loop_cons, if_neg hz]
      rw [hl] at herr
      exact absurd herr (by simp)

/-! ### The loop under a well-behaved upscaler -/

lemma loop_fresh : ∀ (env : UpEnv) (fs : List String) (m : ℕ) (d : OutDir),
    (∀ i, m < i → i ≤ m + fs.length → FreshAt env i) →
    dirNames d = (List.range' 1 m).map frameName →
    ∃ srcs : List String, srcs.length = fs.length ∧
      (loop env fs (m + 1) d).trace = stepsTrace (m + 1) fs srcs ∧
      (loop env fs (m + 1) d).err = none ∧
      dirNames (loop env fs (m + 1) d).dir =
        (List.range' 1 (m + fs.length)).map frameName := by
  intro env fs
  induction fs with
  | nil =>
    intro m d _ hd
    exact ⟨[], rfl, rfl, rfl, by simpa using hd⟩
  | cons f rest ih =>
    intro m d hfresh hd
    have hF : FreshAt env (m + 1) :=
      hfresh (m + 1) (by omega) (by simp only [List.length_cons]; omega)
    rcases hF f d with ⟨nm, mt, henv, hpng, hnm, hmt⟩
    have hdst : frameName (m + 1) ∉ dirNames d := by
      rw [hd]; exact frameName_not_mem_range m (m + 1) (by omega)
    have hstep := renameStep_fresh (m + 1) d nm mt hpng hnm hdst hmt
    have hz : (env (m + 1) f d).1 = 0 := by rw [henv]
    have h2 : (env (m + 1) f d).2 = d ++ [⟨nm, mt⟩] := by rw [henv]
    have hrs : renameStep (m + 1) (env (m + 1) f d).2 =
        some (nm, d ++ [⟨frameName (m + 1), mt⟩]) := by rw [h2, hstep]
    have hl : loop env (f :: rest) (m + 1) d =
        ⟨Event.upscale (m + 1) f :: Event.rename (m + 1) nm (frameName (m + 1)) ::
            (loop env rest (m + 1 + 1) (d ++ [⟨frameName (m + 1), mt⟩])).trace,
          (loop env rest (m + 1 + 1) (d ++ [⟨frameName (m + 1), mt⟩])).dir,
          (loop env rest (m + 1 + 1) (d ++ [⟨frameName (m + 1), mt⟩])).err⟩ := by
      rw [loop_cons, if_pos hz, hrs]
    have hd2 : dirNames (d ++ [⟨frameName (m + 1), mt⟩]) =
        (List.range' 1 (m + 1)).map frameName := by
      rw [dirNames_append, hd]
      rw [show dirNames [⟨frameName (m + 1), mt⟩] = [frameName (m + 1)] from rfl]
      rw [List.range'_concat, List.map_append]
      rw [show 1 + 1 * m = m + 1 from by omega]
      rfl
    have hfresh2 : ∀ i, m + 1 < i → i ≤ m + 1 + rest.length → FreshAt env i :=
      fun i hi1 hi2 => hfresh i (by omega) (by simp only [List.length_cons]; omega)
    rcases ih (m + 1) (d ++ [⟨frameName (m + 1), mt⟩]) hfresh2 hd2 with
      ⟨srcs, hslen, htr, herr, hdtl⟩
    refine ⟨nm :: srcs, by simp [hslen], ?_, ?_, ?_⟩
    · rw [hl]
      show Event.upscale (m + 1) f :: Event.rename (m + 1) nm (frameName (m + 1)) ::
        (loop env rest (m + 1 + 1) (d ++ [⟨frameName (m + 1), mt⟩])).trace =
        stepsTrace (m + 1) (f :: rest) (nm :: srcs)
      rw [htr]
      rfl
    · rw [hl]
      exact herr
    · rw [hl]
      show dirNames (loop env rest (m + 1 + 1) (d ++ [⟨frameName (m + 1), mt⟩])).dir =
        (List.range' 1 (m + (f :: rest).length)).map frameName
      rw [show m + (f :: rest).length = m + 1 + rest.length from by
        simp only [List.length_cons]; omega]
      exact hdtl

/-! ### Branch equations for the whole run -/

lemma process_run_empty (env : UpEnv) (enc : EncEnv) (listing : List String)
    (ex0 : Bool) (d0 : OutDir) (fr fps : ℤ)
    (h : sortStrings (listing.filter (fun f => isImageFile f)) = []) :
    process_images env enc listing ex0 d0 fr fps =
      ⟨[Event.mkdirOutput, Event.listInput, Event.reportNoImages], true, d0, none⟩ := by
  simp only [process_images, h, List.isEmpty_nil]
  rfl

lemma process_run_loopErr (env : UpEnv) (enc : EncEnv) (listing : List String)
    (ex0 : Bool) (d0 : OutDir) (fr fps : ℤ) (f : String) (rest : List String)
    (e : RunError)
    (hfiles : sortStrings (listing.filter (fun f => isImageFile f)) = f :: rest)
    (herr : (loop env (f :: rest) 1 d0).err = some e) :
    process_images env enc listing ex0 d0 fr fps =
      ⟨Event.mkdirOutput :: Event.listInput :: (loop env (f :: rest) 1 d0).trace,
        true, (loop env (f :: rest) 1 d0).dir, some e⟩ := by
  simp only [process_images, hfiles, List.isEmpty_cons]
  rw [if_neg (by simp : ¬(false = true)), herr]
  rfl

lemma process_run_div0 (env : UpEnv) (enc : EncEnv) (listing : List String)
    (ex0 : Bool) (d0 : OutDir) (fps : ℤ) (f : String) (rest : List String)
    (hfiles : sortStrings (listing.filter (fun f => isImageFile f)) = f :: rest)
    (herr : (loop env (f :: rest) 1 d0).err = none) :
    process_images env enc listing ex0 d0 0 fps =
      ⟨Event.mkdirOutput :: Event.listInput :: (loop env (f :: rest) 1 d0).trace,
        true, (loop env (f :: rest) 1 d0).dir, some RunError.divisionByZero⟩ := by
  simp only [process_images, hfiles, List.isEmpty_cons]
  rw [if_neg (by simp : ¬(false = true)), herr]
  rfl

lemma process_run_ok (env : UpEnv) (enc : EncEnv) (listing : List String)
    (ex0 : Bool) (d0 : OutDir) (fr fps : ℤ) (f : String) (rest : List String)
    (hfiles : sortStrings (listing.filter (fun f => isImageFile f)) = f :: rest)
    (herr : (loop env (f :: rest) 1 d0).err = none) (hfr : fr ≠ 0) :
    process_images env enc listing ex0 d0 fr fps =
      ⟨(Event.mkdirOutput :: Event.listInput :: (loop env (f :: rest) 1 d0).trace) ++
          [Event.encode (1 / (fr : ℚ)) fps (enc (loop env (f :: rest) 1 d0).dir).1,
            Event.reportSuccess],
        true, (enc (loop env (f :: rest) 1 d0).dir).2, none⟩ := by
  simp only [process_images, hfiles, List.isEmpty_cons]
  rw [if_neg (by simp : ¬(false = true)), herr, if_neg hfr]
  rfl

/-! ### Concrete collaborator environments used to instantiate theorems -/

/-- A well-behaved upscaler used to witness the theorems: it deposits one
fresh PNG, named longer than every name present (hence new) and stamped
later than every mtime present. -/
def maxMtime (d : OutDir) : ℤ := (d.map OutFile.mtime).foldl max 0

def maxNameLen (d : OutDir) : ℕ :=
  (d.map (fun f => f.name.length)).foldl max 0

def freshPngName (d : OutDir) : String :=
  String.mk (List.replicate (maxNameLen d + 1) 'u' ++ ".png".data)

def envW : UpEnv := fun _ _ d => (0, d ++ [⟨freshPngName d, maxMtime d + 1⟩])

def encW : EncEnv := fun d => (0, d ++ [⟨"output_video.mp4", 0⟩])

lemma foldl_max_init {α : Type} [LinearOrder α] :
    ∀ (l : List α) (a : α), a ≤ l.foldl max a := by
  intro l
  induction l with
  | nil => intro a; exact le_rfl
  | cons x xs ih => intro a; exact le_trans (le_max_left a x) (ih (max a x))

lemma mem_le_foldl_max {α : Type} [LinearOrder α] :
    ∀ (l : List α) (a x : α), x ∈ l → x ≤ l.foldl max a := by
  intro l
  induction l with
  | nil => intro a x hx; simp at hx
  | cons y ys ih =>
    intro a x hx
    rcases List.mem_cons.mp hx with h | h
    · subst h
      exact le_trans (le_max_right a x) (foldl_max_init ys (max a x))
    · exact ih (max a y) x h

lemma isPng_freshPngName (d : OutDir) : isPng (freshPngName d) = true := by
  unfold isPng freshPngName
  show endsWith ((List.replicate (maxNameLen d + 1) 'u' ++ ".png".data).map
    Char.toLower) (".png".data) = true
  rw [List.map_append, List.map_replicate,
    show Char.toLower 'u' = 'u' from by decide,
    show List.map Char.toLower (".png".data) = ".png".data from by decide]
  exact endsWith_append _ _

lemma freshPngName_not_mem (d : OutDir) : freshPngName d ∉ dirNames d := by
  intro h
  have hlen : (freshPngName d).length ≤ maxNameLen d := by
    have hmem : (freshPngName d).length ∈ d.map (fun f => f.name.length) := by
      rcases List.mem_map.mp h with ⟨g, hg, hgn⟩
      exact List.mem_map.mpr ⟨g, hg, by rw [hgn]⟩
    exact mem_le_foldl_max _ 0 _ hmem
  have hlen2 : (freshPngName d).length = maxNameLen d + 5 := by
    show (List.replicate (maxNameLen d + 1) 'u' ++ ".png".data).length =
      maxNameLen d + 5
    simp [List.length_append, List.length_replicate]
  omega

lemma mtime_le_maxMtime {d : OutDir} {g : OutFile} (hg : g ∈ d) :
    g.mtime ≤ maxMtime d :=
  mem_le_foldl_max _ 0 _ (List.mem_map_of_mem OutFile.mtime hg)

lemma freshAt_envW (i : ℕ) : FreshAt envW i := by
  intro f d
  exact ⟨freshPngName d, maxMtime d + 1, rfl, isPng_freshPngName d,
    freshPngName_not_mem d,
    fun g hg => lt_of_le_of_lt (mtime_le_maxMtime hg) (by omega)⟩

lemma encAppends_encW : EncAppends encW := by
  intro d
  exact ⟨0, [⟨"output_video.mp4", 0⟩], rfl⟩

/-! ### The Python string order is total and transitive -/

lemma lexLe_cons_iff (x y : Char) (xs ys : List Char) :
    lexLe (x :: xs) (y :: ys) = true ↔
      x.toNat < y.toNat ∨ (x.toNat = y.toNat ∧ lexLe xs ys = true) := by
  simp only [lexLe]
  split_ifs with h1 h2
  · simp [h1]
  · constructor
    · intro hc; exact absurd hc (by simp)
    · intro hc
      rcases hc with hc | ⟨hc, _⟩
      · omega
      · omega
  · have hxy : x.toNat = y.toNat := by omega
    rw [hxy]
    simp

lemma lexLe_total : ∀ a b : List Char, lexLe a b = true ∨ lexLe b a = true := by
  intro a
  induction a with
  | nil => intro b; left; rfl
  | cons x xs ih =>
    intro b
    cases b with
    | nil => right; rfl
    | cons y ys =>
      rcases Nat.lt_trichotomy x.toNat y.toNat with h | h | h
      · left; exact (lexLe_cons_iff x y xs ys).mpr (Or.inl h)
      · rcases ih ys with h2 | h2
        · left; exact (lexLe_cons_iff x y xs ys).mpr (Or.inr ⟨h, h2⟩)
        · right; exact (lexLe_cons_iff y x ys xs).mpr (Or.inr ⟨h.symm, h2⟩)
      · right; exact (lexLe_cons_iff y x ys xs).mpr (Or.inl h)

lemma lexLe_trans : ∀ a b c : List Char,
    lexLe a b = true → lexLe b c = true → lexLe a c = true := by
  intro a
  induction a with
  | nil => intro b c _ _; rfl
  | cons x xs ih =>
    intro b c hab hbc
    cases b with
    | nil => exact absurd hab (by simp [lexLe])
    | cons y ys =>
      cases c with
      | nil => exact absurd hbc (by simp [lexLe])
      | cons z zs =>
        rcases (lexLe_cons_iff x y xs ys).mp hab with h1 | ⟨h1, h1r⟩ <;>
          rcases (lexLe_cons_iff y z ys zs).mp hbc with h2 | ⟨h2, h2r⟩
        · exact (lexLe_cons_iff x z xs zs).mpr (Or.inl (lt_trans h1 h2))
        · exact (lexLe_cons_iff x z xs zs).mpr (Or.inl (by omega))
        · exact (lexLe_cons_iff x z xs zs).mpr (Or.inl (by omega))
        · exact (lexLe_cons_iff x z xs zs).mpr
            (Or.inr ⟨by omega, ih ys zs h1r h2r⟩)

instance : IsTotal String pyLe where
  total := fun a b => lexLe_total a.data b.data

instance : IsTrans String pyLe where
  trans := fun a b c hab hbc => lexLe_trans a.data b.data c.data hab hbc

lemma sortStrings_sorted (l : List String) : List.Sorted pyLe (sortStrings l) :=
  List.sorted_insertionSort pyLe l

lemma sortStrings_perm (l : List String) : (sortStrings l).Perm l :=
  List.perm_insertionSort pyLe l

lemma sortStrings_eq_nil {l : List String} (h : l = []) : sortStrings l = [] := by
  rw [h]; rfl

lemma filter_eq_nil_of_sort {listing : List String} {f : String} {rest : List String}
    (hfe : sortStrings (listing.filter (fun g => isImageFile g)) = f :: rest) :
    listing.filter (fun g => isImageFile g) ≠ [] := by
  intro hc
  rw [sortStrings_eq_nil hc] at hfe
  exact List.noConfusion hfe

/-! ## Claims -/

/-- Claim C4: for every input directory that is empty or contains no file
with an allowed image extension, `process_images` reports that no images were
found and returns normally: no error is raised, no frame file is created (the
output directory is left exactly as it was), neither external process is
invoked, and no video is produced. -/
theorem claim_C4 (env : UpEnv) (enc : EncEnv) (listing : List String)
    (ex0 : Bool) (d0 : OutDir) (fr fps : ℤ) (r : RunResult)
    (hr : r = process_images env enc listing ex0 d0 fr fps)
    (h : listing.filter (fun f => isImageFile f) = []) :
    r.err = none ∧ r.dir = d0 ∧ Event.reportNoImages ∈ r.trace ∧
      (∀ i f, Event.upscale i f ∉ r.trace) ∧
      (∀ a b e, Event.encode a b e ∉ r.trace) := by
  rw [hr, process_run_empty env enc listing ex0 d0 fr fps (sortStrings_eq_nil h)]
  refine ⟨rfl, rfl, by simp, ?_, ?_⟩
  · intro i f hm
    simp at hm
  · intro a b e hm
    simp at hm

/-- Claim C4 witness at a concrete non-image listing. -/
theorem claim_C4_witness :
    (process_images envW encW ["readme.md", "archive.png.bak"] false
        [⟨"stale.txt", 0⟩] 1 30).err = none ∧
    (process_images envW encW ["readme.md", "archive.png.bak"] false
        [⟨"stale.txt", 0⟩] 1 30).dir = [⟨"stale.txt", 0⟩] ∧
    Event.reportNoImages ∈
      (process_images envW encW ["readme.md", "archive.png.bak"] false
        [⟨"stale.txt", 0⟩] 1 30).trace := by
  have h := claim_C4 envW encW ["readme.md", "archive.png.bak"] false
    [⟨"stale.txt", 0⟩] 1 30 _ rfl (by decide)
  exact ⟨h.1, h.2.1, h.2.2.1⟩

/-- Claim C8: `os.makedirs(..., exist_ok=True)` runs before the input
directory is listed, so the output directory exists on return — also when it
already existed, and also when no images are found, in which case the run
still ends without error and without touching the directory contents. -/
theorem claim_C8 (env : UpEnv) (enc : EncEnv) (listing : List String)
    (ex0 : Bool) (d0 : OutDir) (fr fps : ℤ) (r : RunResult)
    (hr : r = process_images env enc listing ex0 d0 fr fps) :
    r.outDirExists = true ∧
    (∃ t, r.trace = Event.mkdirOutput :: Event.listInput :: t) ∧
    (listing.filter (fun f => isImageFile f) = [] →
      r.err = none ∧ r.dir = d0) := by
  subst hr
  rcases hfe : sortStrings (listing.filter (fun f => isImageFile f)) with _ | ⟨f, rest⟩
  · rw [process_run_empty env enc listing ex0 d0 fr fps hfe]
    exact ⟨rfl, ⟨[Event.reportNoImages], rfl⟩, fun _ => ⟨rfl, rfl⟩⟩
  · have hne := filter_eq_nil_of_sort hfe
    cases herr : (loop env (f :: rest) 1 d0).err with
    | some e =>
      rw [process_run_loopErr env enc listing ex0 d0 fr fps f rest e hfe herr]
      exact ⟨rfl, ⟨_, rfl⟩, fun hc => absurd hc hne⟩
    | none =>
      by_cases hfr : fr = 0
      · subst hfr
        rw [process_run_div0 env enc listing ex0 d0 fps f rest hfe herr]
        exact ⟨rfl, ⟨_, rfl⟩, fun hc => absurd hc hne⟩
      · rw [process_run_ok env enc listing ex0 d0 fr fps f rest hfe herr hfr]
        refine ⟨rfl, ⟨(loop env (f :: rest) 1 d0).trace ++
          [Event.encode (1 / (fr : ℚ)) fps
              (enc (loop env (f :: rest) 1 d0).dir).1,
            Event.reportSuccess], by simp⟩, fun hc => absurd hc hne⟩

/-- Claim C8 witness: concrete empty listing, output directory absent at
entry, existing on return. -/
theorem claim_C8_witness :
    (process_images envW encW [] false [] 1 30).outDirExists = true ∧
    (process_images envW encW [] false [] 1 30).err = none ∧
    (process_images envW encW [] false [] 1 30).dir = [] := by
  have h := claim_C8 envW encW [] false [] 1 30 _ rfl
  exact ⟨h.1, (h.2.2 (by decide)).1, (h.2.2 (by decide)).2⟩

/-- Claim C5: in every run the encoder is invoked at most once — exactly once
when the run completes without error on a non-empty filtered listing; any
encoder invocation is followed only by the success report, with every
per-image rename (one per input) strictly before it; and the encoder runs
only if the filtered input list was non-empty. -/
theorem claim_C5 (env : UpEnv) (enc : EncEnv) (listing : List String)
    (ex0 : Bool) (d0 : OutDir) (fr fps : ℤ) (r : RunResult) (files : List String)
    (hr : r = process_images env enc listing ex0 d0 fr fps)
    (hf : files = sortStrings (listing.filter (fun f => isImageFile f))) :
    countEncode r.trace ≤ 1 ∧
    (∀ a b e, Event.encode a b e ∈ r.trace → files ≠ []) ∧
    (∀ a b e, Event.encode a b e ∈ r.trace →
      ∃ t, r.trace = t ++ [Event.encode a b e, Event.reportSuccess] ∧
        countRename t = files.length ∧ countEncode t = 0) ∧
    (r.err = none → files ≠ [] → countEncode r.trace = 1) := by
  subst hr
  rcases hfe : sortStrings (listing.filter (fun f => isImageFile f)) with _ | ⟨f, rest⟩
  · rw [process_run_empty env enc listing ex0 d0 fr fps hfe]
    refine ⟨by simp, ?_, ?_, ?_⟩
    · intro a b e hm; simp at hm
    · intro a b e hm; simp at hm
    · intro _ hne
      rw [hf, hfe] at hne
      exact absurd rfl hne
  · cases herr : (loop env (f :: rest) 1 d0).err with
    | some e0 =>
      rw [process_run_loopErr env enc listing ex0 d0 fr fps f rest e0 hfe herr]
      refine ⟨?_, ?_, ?_, ?_⟩
      · simp [countEncode_loop]
      · intro a b e hm
        simp only [List.mem_cons] at hm
        rcases hm with hm | hm | hm
        · exact absurd hm (by simp)
        · exact absurd hm (by simp)
        · exact absurd hm (encode_not_mem_loop env (f :: rest) 1 d0 a b e)
      · intro a b e hm
        simp only [List.mem_cons] at hm
        rcases hm with hm | hm | hm
        · exact absurd hm (by simp)
        · exact absurd hm (by simp)
        · exact absurd hm (encode_not_mem_loop env (f :: rest) 1 d0 a b e)
      · intro hc; exact absurd hc (by simp)
    | none =>
      by_cases hfr : fr = 0
      · subst hfr
        rw [process_run_div0 env enc listing ex0 d0 fps f rest hfe herr]
        refine ⟨?_, ?_, ?_, ?_⟩
        · simp [countEncode_loop]
        · intro a b e hm
          simp only [List.mem_cons] at hm
          rcases hm with hm | hm | hm
          · exact absurd hm (by simp)
          · exact absurd hm (by simp)
          · exact absurd hm (encode_not_mem_loop env (f :: rest) 1 d0 a b e)
        · intro a b e hm
          simp only [List.mem_cons] at hm
          rcases hm with hm | hm | hm
          · exact absurd hm (by simp)
          · exact absurd hm (by simp)
          · exact absurd hm (encode_not_mem_loop env (f :: rest) 1 d0 a b e)
        · intro hc; exact absurd hc (by simp)
      · rw [process_run_ok env enc listing ex0 d0 fr fps f rest hfe herr hfr]
        have hcnt : countEncode ((Event.mkdirOutput :: Event.listInput ::
            (loop env (f :: rest) 1 d0).trace) ++
            [Event.encode (1 / (fr : ℚ)) fps
                (enc (loop env (f :: rest) 1 d0).dir).1,
              Event.reportSuccess]) = 1 := by
          simp [countEncode_loop]
        refine ⟨le_of_eq hcnt, ?_, ?_, fun _ _ => hcnt⟩
        · intro a b e _
          rw [hf, hfe]
          simp
        · intro a b e hm
          rcases List.mem_append.mp hm with hm | hm
          · simp only [List.mem_cons] at hm
            rcases hm with hm | hm | hm
            · exact absurd hm (by simp)
            · exact absurd hm (by simp)
            · exact absurd hm (encode_not_mem_loop env (f :: rest) 1 d0 a b e)
          · simp only [List.mem_cons] at hm
            rcases hm with hm | hm | hm
            · have ha : a = 1 / (fr : ℚ) ∧ b = fps ∧
                  e = (enc (loop env (f :: rest) 1 d0).dir).1 := by
                injection hm with h1 h2 h3
                exact ⟨h1, h2, h3⟩
              rcases ha with ⟨h1, h2, h3⟩
              subst h1; subst h2; subst h3
              refine ⟨Event.mkdirOutput :: Event.listInput ::
                (loop env (f :: rest) 1 d0).trace, by simp, ?_, ?_⟩
              · rw [hf, hfe]
                simp [countRename_loop env (f :: rest) 1 d0 herr]
              · simp [countEncode_loop]
            · exact absurd hm (by simp)
            · exact absurd hm (by simp)

/-- Claim C5 witness: a concrete error-free two-image run encodes exactly
once. -/
theorem claim_C5_witness :
    countEncode (process_images envW encW ["b.jpg", "a.png"] true [] 1 30).trace
        ≤ 1 ∧
    countEncode (process_images envW encW ["b.jpg", "a.png"] true [] 1 30).trace
        = 1 := by
  have h := claim_C5 envW encW ["b.jpg", "a.png"] true [] 1 30 _ _ rfl rfl
  exact ⟨h.1, h.2.2.2 rfl (by decide)⟩

lemma loop_err_ne_div0 : ∀ (env : UpEnv) (fs : List String) (i : ℕ) (d : OutDir),
    (loop env fs i d).err ≠ some RunError.divisionByZero := by
  intro env fs
  induction fs with
  | nil => intro i d h; simp [loop_nil] at h
  | cons f rest ih =>
    intro i d h
    by_cases hz : (env i f d).1 = 0
    · cases hrs : renameStep i (env i f d).2 with
      | none =>
        have hl : loop env (f :: rest) i d =
            ⟨[Event.upscale i f], (env i f d).2,
              some (RunError.renameIndexError i)⟩ := by
          rw [loop_cons, if_pos hz, hrs]
        rw [hl] at h
        simp at h
      | some p =>
        rcases p with ⟨src, d2⟩
        have hl : loop env (f :: rest) i d =
            ⟨Event.upscale i f :: Event.rename i src (frameName i) ::
                (loop env rest (i + 1) d2).trace,
              (loop env rest (i + 1) d2).dir, (loop env rest (i + 1) d2).err⟩ := by
          rw [loop_cons, if_pos hz, hrs]
        rw [hl] at h
        exact ih (i + 1) d2 h
    · have hl : loop env (f :: rest) i d =
          ⟨[Event.upscale i f], (env i f d).2,
            some (RunError.upscalerFailed i)⟩ := by
        rw [loop_cons, if_neg hz]
      rw [hl] at h
      simp at h

/-- Claim C10: building the ffmpeg command divides 1 by `framerate`, which is
defined whenever `framerate` is non-zero (in particular for every positive
value, the spec precondition); for `framerate = 0` — a value the CLI accepts,
typing it only as int — an otherwise error-free non-empty run fails with
exactly the division-by-zero error at command construction, before the
encoder is ever invoked. -/
theorem claim_C10 (env : UpEnv) (enc : EncEnv) (listing : List String)
    (ex0 : Bool) (d0 : OutDir) (fps : ℤ) :
    (∀ fr : ℤ, fr ≠ 0 →
      (process_images env enc listing ex0 d0 fr fps).err ≠
        some RunError.divisionByZero) ∧
    ((process_images env enc listing ex0 d0 0 fps).err =
        some RunError.divisionByZero ↔
      sortStrings (listing.filter (fun f => isImageFile f)) ≠ [] ∧
      (loop env (sortStrings (listing.filter (fun f => isImageFile f)))
          1 d0).err = none) ∧
    (∀ a b e, Event.encode a b e ∉
      (process_images env enc listing ex0 d0 0 fps).trace) := by
  rcases hfe : sortStrings (listing.filter (fun f => isImageFile f)) with _ | ⟨f, rest⟩
  · refine ⟨?_, ?_, ?_⟩
    · intro fr hfr
      rw [process_run_empty env enc listing ex0 d0 fr fps hfe]
      simp
    · rw [process_run_empty env enc listing ex0 d0 0 fps hfe]
      constructor
      · intro hc; exact absurd hc (by simp)
      · intro ⟨hc, _⟩; exact absurd rfl hc
    · intro a b e hm
      rw [process_run_empty env enc listing ex0 d0 0 fps hfe] at hm
      simp at hm
  · cases herr : (loop env (f :: rest) 1 d0).err with
    | some e0 =>
      refine ⟨?_, ?_, ?_⟩
      · intro fr hfr
        rw [process_run_loopErr env enc listing ex0 d0 fr fps f rest e0 hfe herr]
        intro hc
        simp only [RunResult.err, Option.some.injEq] at hc
        subst hc
        exact loop_err_ne_div0 env (f :: rest) 1 d0 herr
      · rw [process_run_loopErr env enc listing ex0 d0 0 fps f rest e0 hfe herr]
        constructor
        · intro hc
          simp only [RunResult.err, Option.some.injEq] at hc
          subst hc
          exact absurd herr (loop_err_ne_div0 env (f :: rest) 1 d0)
        · intro ⟨_, hc⟩
          exact absurd hc (by simp)
      · intro a b e hm
        rw [process_run_loopErr env enc listing ex0 d0 0 fps f rest e0 hfe herr] at hm
        simp only [List.mem_cons] at hm
        rcases hm with hm | hm | hm
        · exact absurd hm (by simp)
        · exact absurd hm (by simp)
        · exact absurd hm (encode_not_mem_loop env (f :: rest) 1 d0 a b e)
    | none =>
      refine ⟨?_, ?_, ?_⟩
      · intro fr hfr
        rw [process_run_ok env enc listing ex0 d0 fr fps f rest hfe herr hfr]
        simp
      · rw [process_run_div0 env enc listing ex0 d0 fps f rest hfe herr]
        constructor
        · intro _; exact ⟨by simp, rfl⟩
        · intro _; rfl
      · intro a b e hm
        rw [process_run_div0 env enc listing ex0 d0 fps f rest hfe herr] at hm
        simp only [List.mem_cons] at hm
        rcases hm with hm | hm | hm
        · exact absurd hm (by simp)
        · exact absurd hm (by simp)
        · exact absurd hm (encode_not_mem_loop env (f :: rest) 1 d0 a b e)

/-- Claim C10 witness: framerate 0 yields exactly the division-by-zero
failure on a concrete one-image run, while framerate 1 does not. -/
theorem claim_C10_witness :
    (process_images envW encW ["a.png"] true [] 0 30).err =
      some RunError.divisionByZero ∧
    (process_images envW encW ["a.png"] true [] 1 30).err ≠
      some RunError.divisionByZero ∧
    Event.encode 1 30 0 ∉ (process_images envW encW ["a.png"] true [] 0 30).trace := by
  have h := claim_C10 envW encW ["a.png"] true [] 30
  exact ⟨h.2.1.mpr ⟨by decide, rfl⟩, h.1 1 (by decide), h.2.2 1 30 0⟩

/-- An upscaler child that exits 0 but deposits nothing, used to witness the
rename step's missing-PNG failure. -/
def envNone : UpEnv := fun _ _ d => (0, d)

/-- Claim C9: the per-image rename step is safe only when the output
directory holds at least one file whose lowercased name ends in `.png`: the
step takes the last element of the mtime-sorted PNG list, so an empty PNG
list is exactly the case in which it fails with the out-of-bounds index
error — and in a run this failure is surfaced as an error, not skipped. -/
theorem claim_C9 :
    (∀ (i : ℕ) (d : OutDir), pngFiles d = [] ↔ renameStep i d = none) ∧
    (∀ (env : UpEnv) (enc : EncEnv) (listing : List String) (ex0 : Bool)
      (fr fps : ℤ) (f : String) (rest : List String) (d1 : OutDir),
      sortStrings (listing.filter (fun g => isImageFile g)) = f :: rest →
      env 1 f [] = (0, d1) → pngFiles d1 = [] →
      (process_images env enc listing ex0 [] fr fps).err =
        some (RunError.renameIndexError 1)) := by
  constructor
  · intro i d
    exact ⟨fun h => (renameStep_none_iff i d).mpr h,
      fun h => (renameStep_none_iff i d).mp h⟩
  · intro env enc listing ex0 fr fps f rest d1 hfiles henv hpng
    have hz : (env 1 f []).1 = 0 := by rw [henv]
    have hrs : renameStep 1 (env 1 f []).2 = none := by
      rw [show (env 1 f []).2 = d1 from by rw [henv]]
      exact (renameStep_none_iff 1 d1).mpr hpng
    have herr : (loop env (f :: rest) 1 []).err =
        some (RunError.renameIndexError 1) := by
      rw [show loop env (f :: rest) 1 [] =
        ⟨[Event.upscale 1 f], (env 1 f []).2,
          some (RunError.renameIndexError 1)⟩ from by
        rw [loop_cons, if_pos hz, hrs]]
    rw [process_run_loopErr env enc listing ex0 [] fr fps f rest _ hfiles herr]

/-- Claim C9 witness: an upscaler that deposits no PNG makes a concrete run
fail with the index error at image 1. -/
theorem claim_C9_witness :
    renameStep 1 [] = none ∧
    (process_images envNone encW ["a.png"] true [] 1 30).err =
      some (RunError.renameIndexError 1) :=
  ⟨(claim_C9.1 1 []).mp rfl,
    claim_C9.2 envNone encW ["a.png"] true 1 30 "a.png" [] [] (by decide) rfl rfl⟩

/-- Claim C7: every encoder invocation carries input frame rate
`1 / seconds_per_frame` and output frame rate `output_fps` (for
`seconds_per_frame = 2`, `output_fps = 24`: input rate one half, output rate
24, exhibited by the witness). -/
theorem claim_C7 (env : UpEnv) (enc : EncEnv) (listing : List String)
    (ex0 : Bool) (d0 : OutDir) (fr fps : ℤ) (a : ℚ) (b e : ℤ)
    (h : Event.encode a b e ∈ (process_images env enc listing ex0 d0 fr fps).trace) :
    a = 1 / (fr : ℚ) ∧ b = fps := by
  rcases hfe : sortStrings (listing.filter (fun f => isImageFile f)) with _ | ⟨f, rest⟩
  · rw [process_run_empty env enc listing ex0 d0 fr fps hfe] at h
    simp at h
  · cases herr : (loop env (f :: rest) 1 d0).err with
    | some e0 =>
      rw [process_run_loopErr env enc listing ex0 d0 fr fps f rest e0 hfe herr] at h
      simp only [List.mem_cons] at h
      rcases h with h | h | h
      · exact absurd h (by simp)
      · exact absurd h (by simp)
      · exact absurd h (encode_not_mem_loop env (f :: rest) 1 d0 a b e)
    | none =>
      by_cases hfr : fr = 0
      · subst hfr
        rw [process_run_div0 env enc listing ex0 d0 fps f rest hfe herr] at h
        simp only [List.mem_cons] at h
        rcases h with h | h | h
        · exact absurd h (by simp)
        · exact absurd h (by simp)
        · exact absurd h (encode_not_mem_loop env (f :: rest) 1 d0 a b e)
      · rw [process_run_ok env enc listing ex0 d0 fr fps f rest hfe herr hfr] at h
        rcases List.mem_append.mp h with h | h
        · simp only [List.mem_cons] at h
          rcases h with h | h | h
          · exact absurd h (by simp)
          · exact absurd h (by simp)
          · exact absurd h (encode_not_mem_loop env (f :: rest) 1 d0 a b e)
        · simp only [List.mem_cons] at h
          rcases h with h | h | h
          · have ha : a = 1 / (fr : ℚ) ∧ b = fps := by
              injection h with h1 h2 h3
              exact ⟨h1, h2⟩
            exact ha
          · exact absurd h (by simp)
          · exact absurd h (by simp)

/-- Claim C7 witness: `seconds_per_frame = 2`, `output_fps = 24` — the
encoder event carries input rate `1/2` and output rate `24`. -/
theorem claim_C7_witness :
    Event.encode (1 / ((2 : ℤ) : ℚ)) 24 0 ∈
      (process_images envW encW ["a.png"] true [] 2 24).trace ∧
    1 / ((2 : ℤ) : ℚ) = 1 / ((2 : ℤ) : ℚ) ∧ (24 : ℤ) = 24 := by
  have htr : (process_images envW encW ["a.png"] true [] 2 24).trace =
      [Event.mkdirOutput, Event.listInput, Event.upscale 1 "a.png",
        Event.rename 1 (freshPngName []) (frameName 1),
        Event.encode (1 / ((2 : ℤ) : ℚ)) 24 0, Event.reportSuccess] := rfl
  have hmem : Event.encode (1 / ((2 : ℤ) : ℚ)) 24 0 ∈
      (process_images envW encW ["a.png"] true [] 2 24).trace := by
    rw [htr]
    simp
  have h := claim_C7 envW encW ["a.png"] true [] 2 24 _ _ _ hmem
  exact ⟨hmem, h.1 ▸ ⟨rfl, h.2 ▸ rfl⟩⟩

/-- An encoder child that exits with status 1 (and writes nothing), used to
exhibit that the source ignores the encoder's exit status. -/
def encFail : EncEnv := fun d => (1, d)

/-- Claim C2 counterexample: a concrete run in which the encoder child exits
with status 1 (recorded in the `Event.encode` exit field), yet
`process_images` finishes with no error and still reports success — the
claim that a failing encoder aborts the run as a fatal error is false:
`os.system`'s return value is ignored by the source. -/
theorem claim_C2_counterexample :
    Event.encode (1 / ((1 : ℤ) : ℚ)) 30 1 ∈
      (process_images envW encFail ["a.png"] true [] 1 30).trace ∧
    (process_images envW encFail ["a.png"] true [] 1 30).err = none ∧
    Event.reportSuccess ∈
      (process_images envW encFail ["a.png"] true [] 1 30).trace := by
  have htr : (process_images envW encFail ["a.png"] true [] 1 30).trace =
      [Event.mkdirOutput, Event.listInput, Event.upscale 1 "a.png",
        Event.rename 1 (freshPngName []) (frameName 1),
        Event.encode (1 / ((1 : ℤ) : ℚ)) 30 1, Event.reportSuccess] := rfl
  refine ⟨?_, rfl, ?_⟩ <;> rw [htr] <;> simp

/-- Claim C2 amended: the encoder's exit status never aborts the run — in
every run in which the encoder is invoked, whatever exit status the child
returns, `process_images` finishes without an unhandled error and reports
success.  (Only the upscaler, run with `check=True`, aborts the run on
failure.) -/
theorem claim_C2_amended (env : UpEnv) (enc : EncEnv) (listing : List String)
    (ex0 : Bool) (d0 : OutDir) (fr fps : ℤ) (a : ℚ) (b e : ℤ)
    (h : Event.encode a b e ∈ (process_images env enc listing ex0 d0 fr fps).trace) :
    (process_images env enc listing ex0 d0 fr fps).err = none ∧
    Event.reportSuccess ∈ (process_images env enc listing ex0 d0 fr fps).trace := by
  rcases hfe : sortStrings (listing.filter (fun f => isImageFile f)) with _ | ⟨f, rest⟩
  · rw [process_run_empty env enc listing ex0 d0 fr fps hfe] at h
    simp at h
  · cases herr : (loop env (f :: rest) 1 d0).err with
    | some e0 =>
      rw [process_run_loopErr env enc listing ex0 d0 fr fps f rest e0 hfe herr] at h
      simp only [List.mem_cons] at h
      rcases h with h | h | h
      · exact absurd h (by simp)
      · exact absurd h (by simp)
      · exact absurd h (encode_not_mem_loop env (f :: rest) 1 d0 a b e)
    | none =>
      by_cases hfr : fr = 0
      · subst hfr
        rw [process_run_div0 env enc listing ex0 d0 fps f rest hfe herr] at h
        simp only [List.mem_cons] at h
        rcases h with h | h | h
        · exact absurd h (by simp)
        · exact absurd h (by simp)
        · exact absurd h (encode_not_mem_loop env (f :: rest) 1 d0 a b e)
      · rw [process_run_ok env enc listing ex0 d0 fr fps f rest hfe herr hfr]
        exact ⟨rfl, by simp⟩

/-- Claim C2 amended witness: a concrete run with a failing encoder ends
without error and reports success. -/
theorem claim_C2_witness :
    (process_images envW encFail ["a.png"] true [] 1 30).err = none ∧
    Event.reportSuccess ∈
      (process_images envW encFail ["a.png"] true [] 1 30).trace := by
  have htr : (process_images envW encFail ["a.png"] true [] 1 30).trace =
      [Event.mkdirOutput, Event.listInput, Event.upscale 1 "a.png",
        Event.rename 1 (freshPngName []) (frameName 1),
        Event.encode (1 / ((1 : ℤ) : ℚ)) 30 1, Event.reportSuccess] := rfl
  have hmem : Event.encode (1 / ((1 : ℤ) : ℚ)) 30 1 ∈
      (process_images envW encFail ["a.png"] true [] 1 30).trace := by
    rw [htr]
    simp
  exact claim_C2_amended envW encFail ["a.png"] true [] 1 30 _ _ _ hmem

/-- An upscaler child that deposits `x.png` with mtime 5, used to exhibit the
rename step replacing a stale frame file. -/
def envX : UpEnv := fun _ _ d => (0, d ++ [⟨"x.png", 5⟩])

/-- Claim C6 counterexample: the rename step can modify a file other than the
one it selects.  With a pre-existing `frame_001.png` in the output directory
(e.g. left over from an earlier run into the same folder — `makedirs` with
`exist_ok=True` allows that), the step selects the newly deposited `x.png`
(newest PNG) and `os.rename` silently replaces the old `frame_001.png`, which
disappears.  Shown both for the step in isolation and for a whole run. -/
theorem claim_C6_counterexample :
    renameStep 1 [⟨"frame_001.png", 0⟩, ⟨"x.png", 5⟩] =
      some ("x.png", [⟨"frame_001.png", 5⟩]) ∧
    (⟨"frame_001.png", (0 : ℤ)⟩ : OutFile) ∈
      ([⟨"frame_001.png", 0⟩, ⟨"x.png", 5⟩] : OutDir) ∧
    (⟨"frame_001.png", (0 : ℤ)⟩ : OutFile) ∉ ([⟨"frame_001.png", 5⟩] : OutDir) ∧
    Event.rename 1 "x.png" "frame_001.png" ∈
      (process_images envX encW ["a.png"] true
        [⟨"frame_001.png", 0⟩] 1 30).trace ∧
    (⟨"frame_001.png", (0 : ℤ)⟩ : OutFile) ∉
      (process_images envX encW ["a.png"] true [⟨"frame_001.png", 0⟩] 1 30).dir := by
  refine ⟨by decide, by decide, by decide, ?_, by decide⟩
  have htr : (process_images envX encW ["a.png"] true
      [⟨"frame_001.png", 0⟩] 1 30).trace =
      [Event.mkdirOutput, Event.listInput, Event.upscale 1 "a.png",
        Event.rename 1 "x.png" (frameName 1),
        Event.encode (1 / ((1 : ℤ) : ℚ)) 30 0, Event.reportSuccess] := rfl
  rw [htr, show frameName 1 = "frame_001.png" from by decide]
  simp

/-- Claim C6 amended: after each upscaler invocation the rename step scans
the output directory for files whose lowercased name ends in `.png`, selects
one of maximal modification time, and renames exactly that file to
`frame_<i:03d>.png`; every file other than the selected source — and other
than a pre-existing file already bearing the target frame name, which the
POSIX rename silently replaces — is left unmodified, and nothing else
appears. -/
theorem claim_C6_amended (i : ℕ) (d : OutDir) (h : pngFiles d ≠ []) :
    ∃ g, pickNewest (pngFiles d) = some g ∧ g ∈ d ∧ isPng g.name = true ∧
      (∀ f ∈ pngFiles d, f.mtime ≤ g.mtime) ∧
      renameStep i d = some (g.name, renameFile d g.name (frameName i)) ∧
      (∀ f ∈ d, f.name ≠ g.name → f.name ≠ frameName i →
        f ∈ renameFile d g.name (frameName i)) ∧
      (∀ f ∈ renameFile d g.name (frameName i),
        f ∈ d ∨ ∃ mt, f = ⟨frameName i, mt⟩ ∧ (⟨g.name, mt⟩ : OutFile) ∈ d) := by
  rcases pickNewest_spec (pngFiles d) h with ⟨g, hpick, hmem, hall⟩
  refine ⟨g, hpick, mem_of_mem_pngFiles hmem, (List.mem_filter.mp hmem).2,
    hall, ?_, ?_, ?_⟩
  · unfold renameStep
    rw [hpick]
  · intro f hf h1 h2
    exact renameFile_mem_other hf h1 h2
  · intro f hf
    exact mem_of_mem_renameFile hf

/-- Claim C6 amended witness at a concrete directory: the newest PNG
(`a.png`, the only PNG) is selected and renamed. -/
theorem claim_C6_witness :
    pngFiles [⟨"a.png", 3⟩, ⟨"b.txt", 9⟩] ≠ [] ∧
    ∃ g, pickNewest (pngFiles [⟨"a.png", 3⟩, ⟨"b.txt", 9⟩]) = some g ∧
      g ∈ ([⟨"a.png", 3⟩, ⟨"b.txt", 9⟩] : OutDir) ∧ isPng g.name = true ∧
      (∀ f ∈ pngFiles [⟨"a.png", 3⟩, ⟨"b.txt", 9⟩], f.mtime ≤ g.mtime) ∧
      renameStep 1 [⟨"a.png", 3⟩, ⟨"b.txt", 9⟩] =
        some (g.name, renameFile [⟨"a.png", 3⟩, ⟨"b.txt", 9⟩] g.name (frameName 1)) ∧
      (∀ f ∈ ([⟨"a.png", 3⟩, ⟨"b.txt", 9⟩] : OutDir), f.name ≠ g.name →
        f.name ≠ frameName 1 →
        f ∈ renameFile [⟨"a.png", 3⟩, ⟨"b.txt", 9⟩] g.name (frameName 1)) ∧
      (∀ f ∈ renameFile [⟨"a.png", 3⟩, ⟨"b.txt", 9⟩] g.name (frameName 1),
        f ∈ ([⟨"a.png", 3⟩, ⟨"b.txt", 9⟩] : OutDir) ∨
          ∃ mt, f = ⟨frameName 1, mt⟩ ∧
            (⟨g.name, mt⟩ : OutFile) ∈ ([⟨"a.png", 3⟩, ⟨"b.txt", 9⟩] : OutDir)) :=
  ⟨by decide, claim_C6_amended 1 [⟨"a.png", 3⟩, ⟨"b.txt", 9⟩] (by decide)⟩

/-- Claim C1: on a fresh output directory and with an upscaler that deposits
one new PNG per invocation, `process_images` filters the listing to the
allowed image extensions (lowercased), sorts the survivors lexicographically
ascending, and produces exactly one frame per input — the output directory's
frame files are exactly `frame_001.png`, `frame_002.png`, … contiguously
(plus whatever the encoder adds), the frame at index `i` arising from the
`i`-th input in sorted order, every rename targeting a canonical
contiguous frame name. -/
theorem claim_C1 (env : UpEnv) (enc : EncEnv) (listing : List String)
    (ex0 : Bool) (fr fps : ℤ) (r : RunResult) (files : List String)
    (hr : r = process_images env enc listing ex0 [] fr fps)
    (hf : files = sortStrings (listing.filter (fun f => isImageFile f)))
    (hfresh : ∀ i, FreshAt env i) (henc : EncAppends enc) :
    List.Sorted pyLe files ∧
    files.Perm (listing.filter (fun f => isImageFile f)) ∧
    (∃ extra, dirNames r.dir =
      (List.range' 1 files.length).map frameName ++ extra) ∧
    (∀ j (hj : j < files.length),
      Event.upscale (j + 1) (files.get ⟨j, hj⟩) ∈ r.trace ∧
      ∃ src, Event.rename (j + 1) src (frameName (j + 1)) ∈ r.trace) ∧
    (∀ a s t, Event.rename a s t ∈ r.trace →
      1 ≤ a ∧ a ≤ files.length ∧ t = frameName a) ∧
    countRename r.trace = files.length := by
  subst hr
  subst hf
  have hsorted := sortStrings_sorted (listing.filter (fun f => isImageFile f))
  have hperm := sortStrings_perm (listing.filter (fun f => isImageFile f))
  rcases hfe : sortStrings (listing.filter (fun f => isImageFile f)) with _ | ⟨f, rest⟩
  · rw [hfe] at hsorted hperm
    rw [process_run_empty env enc listing ex0 [] fr fps hfe]
    refine ⟨hsorted, hperm, ⟨[], by simp [dirNames]⟩, ?_, ?_, by simp⟩
    · intro j hj
      exact absurd hj (by simp)
    · intro a s t hm
      simp at hm
  · rw [hfe] at hsorted hperm
    have hfreshB : ∀ i, 0 < i → i ≤ 0 + (f :: rest).length → FreshAt env i :=
      fun i _ _ => hfresh i
    rcases loop_fresh env (f :: rest) 0 [] hfreshB rfl with
      ⟨srcs, hslen, htr, herr, hdir⟩
    simp only [Nat.zero_add] at htr herr hdir
    have hupmem : ∀ j (hj : j < (f :: rest).length),
        Event.upscale (j + 1) ((f :: rest).get ⟨j, hj⟩) ∈
          (loop env (f :: rest) 1 []).trace ∧
        ∃ src, Event.rename (j + 1) src (frameName (j + 1)) ∈
          (loop env (f :: rest) 1 []).trace := by
      intro j hj
      constructor
      · have hm := upscale_mem_stepsTrace (f :: rest) srcs 1 hslen j hj
        rw [Nat.add_comm 1 j] at hm
        rw [htr]
        exact hm
      · rcases rename_mem_stepsTrace (f :: rest) srcs 1 hslen j hj with ⟨src, hm⟩
        rw [Nat.add_comm 1 j] at hm
        exact ⟨src, by rw [htr]; exact hm⟩
    have hrenb : ∀ a s t, Event.rename a s t ∈ (loop env (f :: rest) 1 []).trace →
        1 ≤ a ∧ a ≤ (f :: rest).length ∧ t = frameName a := by
      intro a s t hm
      rcases loop_rename_bounds env (f :: rest) 1 [] a s t hm with ⟨h1, h2, h3⟩
      exact ⟨h1, by omega, h3⟩
    have hcnt := countRename_loop env (f :: rest) 1 [] herr
    by_cases hfr : fr = 0
    · subst hfr
      rw [process_run_div0 env enc listing ex0 [] fps f rest hfe herr]
      refine ⟨hsorted, hperm, ⟨[], by simpa using hdir⟩, ?_, ?_, ?_⟩
      · intro j hj
        rcases hupmem j hj with ⟨h1, src, h2⟩
        exact ⟨List.mem_cons_of_mem _ (List.mem_cons_of_mem _ h1),
          src, List.mem_cons_of_mem _ (List.mem_cons_of_mem _ h2)⟩
      · intro a s t hm
        simp only [List.mem_cons] at hm
        rcases hm with hm | hm | hm
        · exact absurd hm (by simp)
        · exact absurd hm (by simp)
        · exact hrenb a s t hm
      · simpa using hcnt
    · rw [process_run_ok env enc listing ex0 [] fr fps f rest hfe herr hfr]
      rcases henc (loop env (f :: rest) 1 []).dir with ⟨ecode, extra, heq⟩
      refine ⟨hsorted, hperm, ⟨dirNames extra, ?_⟩, ?_, ?_, ?_⟩
      · show dirNames (enc (loop env (f :: rest) 1 []).dir).2 = _
        rw [heq]
        show dirNames ((loop env (f :: rest) 1 []).dir ++ extra) = _
        rw [dirNames_append, hdir]
      · intro j hj
        rcases hupmem j hj with ⟨h1, src, h2⟩
        exact ⟨List.mem_append_left _
            (List.mem_cons_of_mem _ (List.mem_cons_of_mem _ h1)),
          src, List.mem_append_left _
            (List.mem_cons_of_mem _ (List.mem_cons_of_mem _ h2))⟩
      · intro a s t hm
        rcases List.mem_append.mp hm with hm | hm
        · simp only [List.mem_cons] at hm
          rcases hm with hm | hm | hm
          · exact absurd hm (by simp)
          · exact absurd hm (by simp)
          · exact hrenb a s t hm
        · simp only [List.mem_cons] at hm
          rcases hm with hm | hm | hm
          · exact absurd hm (by simp)
          · exact absurd hm (by simp)
          · exact absurd hm (by simp)
      · simpa using hcnt

/-- Claim C1 witness: `b.jpg`, `a.png` are processed as `a.png` then `b.jpg`
with frames `frame_001.png`, `frame_002.png`. -/
theorem claim_C1_witness :
    List.Sorted pyLe ["a.png", "b.jpg"] ∧
    (∃ extra, dirNames (process_images envW encW ["b.jpg", "a.png"] true
        [] 1 30).dir =
      (List.range' 1 2).map frameName ++ extra) ∧
    countRename (process_images envW encW ["b.jpg", "a.png"] true
        [] 1 30).trace = 2 := by
  have h := claim_C1 envW encW ["b.jpg", "a.png"] true 1 30 _ ["a.png", "b.jpg"]
    rfl (by decide) (fun i => freshAt_envW i) encAppends_encW
  exact ⟨h.1, h.2.2.1, h.2.2.2.2.2⟩

lemma process_run_loopErr2 (env : UpEnv) (enc : EncEnv) (listing : List String)
    (ex0 : Bool) (d0 : OutDir) (fr fps : ℤ) (fl : List String) (e : RunError)
    (hfl : fl = sortStrings (listing.filter (fun f => isImageFile f)))
    (hne : fl ≠ [])
    (herr : (loop env fl 1 d0).err = some e) :
    process_images env enc listing ex0 d0 fr fps =
      ⟨Event.mkdirOutput :: Event.listInput :: (loop env fl 1 d0).trace,
        true, (loop env fl 1 d0).dir, some e⟩ := by
  cases hc : fl with
  | nil => exact absurd hc hne
  | cons f rest =>
    subst hc
    exact process_run_loopErr env enc listing ex0 d0 fr fps f rest e hfl.symm herr

/-- Claim C3: when the upscaler child for the image at 1-based position `k`
exits non-zero (having only added files, as a child process can at most
deposit output before dying) and behaved well before, `process_images`
aborts exactly there with the upscaler failure: no rename with index `≥ k`
ever happens, the encoder is never invoked, no success is reported, and the
frames `frame_001.png … frame_<k-1>.png` produced so far are still present
in the output directory — no cleanup, no retry. -/
theorem claim_C3 (env : UpEnv) (enc : EncEnv) (listing : List String)
    (ex0 : Bool) (fr fps : ℤ) (r : RunResult) (files : List String) (k : ℕ)
    (hr : r = process_images env enc listing ex0 [] fr fps)
    (hf : files = sortStrings (listing.filter (fun f => isImageFile f)))
    (hk1 : 1 ≤ k) (hk : k ≤ files.length)
    (hfresh : ∀ i, i < k → FreshAt env i)
    (hfailExit : ∀ f d, (env k f d).1 ≠ 0)
    (hfailApp : ∀ f d, ∃ extra, (env k f d).2 = d ++ extra) :
    r.err = some (RunError.upscalerFailed k) ∧
    (∀ a b e, Event.encode a b e ∉ r.trace) ∧
    Event.reportSuccess ∉ r.trace ∧
    (∀ a s t, Event.rename a s t ∈ r.trace → a < k) ∧
    (∃ extra, dirNames r.dir =
      (List.range' 1 (k - 1)).map frameName ++ extra) := by
  subst hr
  have hlenpos : 1 ≤ files.length := le_trans hk1 hk
  have hne : files ≠ [] := by
    intro hc
    rw [hc] at hlenpos
    simp at hlenpos
  have hlen1 : (files.take (k - 1)).length = k - 1 := by
    rw [List.length_take]
    omega
  cases hd : files.drop (k - 1) with
  | nil =>
    have : files.length - (k - 1) = 0 := by
      rw [← List.length_drop, hd]
      rfl
    omega
  | cons x rest2 =>
    have hsplit : files = files.take (k - 1) ++ (x :: rest2) := by
      rw [← hd]
      exact (List.take_append_drop (k - 1) files).symm
    have hfreshB : ∀ i, 0 < i → i ≤ 0 + (files.take (k - 1)).length →
        FreshAt env i := by
      intro i h1 h2
      rw [Nat.zero_add, hlen1] at h2
      exact hfresh i (by omega)
    rcases loop_fresh env (files.take (k - 1)) 0 [] hfreshB rfl with
      ⟨srcs, hslen, htr1, herr1, hdir1⟩
    simp only [Nat.zero_add] at htr1 herr1 hdir1
    rw [hlen1] at hdir1
    have hcomb := loop_append env (files.take (k - 1)) (x :: rest2) 1 [] herr1
    have hkk : 1 + (files.take (k - 1)).length = k := by
      rw [hlen1]; omega
    rw [hkk] at hcomb
    have hstep : loop env (x :: rest2) k (loop env (files.take (k - 1)) 1 []).dir =
        ⟨[Event.upscale k x],
          (env k x (loop env (files.take (k - 1)) 1 []).dir).2,
          some (RunError.upscalerFailed k)⟩ := by
      rw [loop_cons, if_neg (hfailExit x _)]
    rw [hstep] at hcomb
    have hloopfl : loop env files 1 [] =
        ⟨(loop env (files.take (k - 1)) 1 []).trace ++ [Event.upscale k x],
          (env k x (loop env (files.take (k - 1)) 1 []).dir).2,
          some (RunError.upscalerFailed k)⟩ :=
      (congrArg (fun l => loop env l 1 []) hsplit).trans hcomb
    have herrAll : (loop env files 1 []).err =
        some (RunError.upscalerFailed k) := by rw [hloopfl]
    have hrun := process_run_loopErr2 env enc listing ex0 [] fr fps files
      (RunError.upscalerFailed k) hf hne herrAll
    rw [hrun]
    refine ⟨rfl, ?_, ?_, ?_, ?_⟩
    · intro a b e hm
      simp only [List.mem_cons] at hm
      rcases hm with hm | hm | hm
      · exact absurd hm (by simp)
      · exact absurd hm (by simp)
      · exact absurd hm (encode_not_mem_loop env files 1 [] a b e)
    · intro hm
      simp only [List.mem_cons] at hm
      rcases hm with hm | hm | hm
      · exact absurd hm (by simp)
      · exact absurd hm (by simp)
      · rcases loop_trace_events env files 1 [] _ hm with ⟨j, g, hg⟩ | ⟨j, s, t, hg⟩ <;>
          simp at hg
    · intro a s t hm
      simp only [List.mem_cons] at hm
      rcases hm with hm | hm | hm
      · exact absurd hm (by simp)
      · exact absurd hm (by simp)
      · rw [show (loop env files 1 []).trace =
          (loop env (files.take (k - 1)) 1 []).trace ++ [Event.upscale k x] from by
            rw [hloopfl]] at hm
        rcases List.mem_append.mp hm with hm | hm
        · rw [htr1] at hm
          rcases stepsTrace_rename_bounds (files.take (k - 1)) srcs 1 a s t hm with
            ⟨h1, h2, _⟩
          rw [hlen1] at h2
          omega
        · simp at hm
    · rcases hfailApp x (loop env (files.take (k - 1)) 1 []).dir with ⟨extra, hdd⟩
      refine ⟨dirNames extra, ?_⟩
      rw [show (loop env files 1 []).dir =
        (env k x (loop env (files.take (k - 1)) 1 []).dir).2 from by rw [hloopfl],
        hdd]
      show dirNames ((loop env (files.take (k - 1)) 1 []).dir ++ extra) =
        (List.range' 1 (k - 1)).map frameName ++ dirNames extra
      rw [dirNames_append, hdir1]

/-- The witness upscaler for claim C3: well-behaved except at invocation 2,
where it exits 1 without depositing anything. -/
def envFail2 : UpEnv := fun i f d => if i = 2 then (1, d) else envW i f d

/-- Claim C3 witness: three images, failure at image 2 — the run aborts with
the upscaler failure, reports no success, and `frame_001.png` is still
present. -/
theorem claim_C3_witness :
    (process_images envFail2 encW ["a.png", "b.png", "c.png"] true [] 1
        30).err = some (RunError.upscalerFailed 2) ∧
    Event.reportSuccess ∉
      (process_images envFail2 encW ["a.png", "b.png", "c.png"] true [] 1
        30).trace ∧
    (∃ extra, dirNames (process_images envFail2 encW ["a.png", "b.png", "c.png"]
        true [] 1 30).dir = (List.range' 1 1).map frameName ++ extra) := by
  have hfresh : ∀ i, i < 2 → FreshAt envFail2 i := by
    intro i hi f d
    have hne2 : i ≠ 2 := by omega
    have he : envFail2 i f d = envW i f d := by simp [envFail2, hne2]
    rw [he]
    exact freshAt_envW i f d
  have h := claim_C3 envFail2 encW ["a.png", "b.png", "c.png"] true 1 30 _
    ["a.png", "b.png", "c.png"] 2 rfl (by decide) (by decide) (by decide) hfresh
    (fun f d => by simp [envFail2]) (fun f d => ⟨[], by simp [envFail2]⟩)
  exact ⟨h.1, h.2.2.1, h.2.2.2.2⟩

end BatchProcess

-- concrete evaluations of the embedded operations
example : BatchProcess.isImageFile ("photo.JPeG") = true := by decide
example : BatchProcess.isImageFile ("readme.md") = false := by decide
example : BatchProcess.isImageFile ("archive.png.bak") = false := by decide
example : BatchProcess.isImageFile (".png") = false := by decide
example : BatchProcess.splitextExt ("a.b.c") = ".c" := by decide
example : BatchProcess.sortStrings ["b.jpg", "a.png", "c.bmp"] =
    ["a.png", "b.jpg", "c.bmp"] := by decide
example : BatchProcess.frameName 1 = "frame_001.png" := by decide
example : BatchProcess.frameName 1000 = "frame_1000.png" := by decide
example : BatchProcess.isPng (BatchProcess.frameName 12) = true := by decide
example : (1 : ℚ) / ((2 : ℤ) : ℚ) = 1 / 2 := by norm_num
